import Mathlib

/-!
# Bracetopia

A shallow embedding of the simulation core of `src/project1/bracetopia.c`
(`create_array`, `shuffle_array`, `fill_neighborhood`, `is_valid`,
`return_happiness`, `check_happiness`, `look_for_vacancy`, `move_rules`,
`get_sum`) and proofs about it.

Modelling conventions.

* A `char grid[][dimension]` is the flat row-major buffer it is in memory:
  `grid[i][j]` is the byte at offset `i * dimension + j`.  The same holds for
  `bool happy[][dimension]`.  A read outside the buffer yields the character
  with code `0` (or `false`); the loops of the program never make one when the
  buffer has `dimension * dimension` cells.  Where the bounds are the subject
  (`create_array`, `shuffle_array`, `fill_neighborhood`) reads and stores go
  through `load` and `store`, which fail outside the buffer.
* C `int` values are `Int`; loop counters that start at `0` and run up to a
  bound are `Nat`.  No quantity of the program comes near `2 ^ 31`.
* C `double` values are finite binary64 numbers `man * 2 ^ exp`; every
  operation is the exact result rounded to 53 significant bits, ties to even,
  with no excess precision.  Signed zeros are not told apart and the exponent
  is unbounded: every double the simulation computes is `0` or has magnitude
  between `2 ^ (-7)` and `2 ^ 62`, far from the binary64 limits.  A division
  by zero has no finite result and is `none`.
* A `for` loop is a `foldl` over the range of its counter; a `return` from
  inside a loop is modelled with `orReturn`; a `while` loop runs on fuel.
* The values `random()` returns are a parameter, and so is the value an
  uninitialised local holds on entry.
-/

namespace Bracetopia

/-! ## Binary64 arithmetic -/

/-- A finite double: the number `man * 2 ^ exp`. -/
structure Dbl where
  man : Int
  exp : Int
deriving DecidableEq, Repr

namespace Dbl

/-- Number of binary digits of `n` (the first argument is recursion fuel). -/
def bitLen : Nat → Nat → Nat
  | 0, _ => 0
  | fuel + 1, n => if n = 0 then 0 else bitLen fuel (n / 2) + 1

/-- Round `n * 2 ^ e` to 53 significant bits, to nearest, ties to even. -/
def roundNat (n : Nat) (e : Int) : Nat × Int :=
  let s := bitLen n n - 53
  if s = 0 then (n, e)
  else
    let q := n / 2 ^ s
    let r := n % 2 ^ s
    let half := 2 ^ (s - 1)
    (if half < r ∨ (r = half ∧ q % 2 = 1) then q + 1 else q, e + s)

/-- Round the signed number `m * 2 ^ e` to a double. -/
def round (m e : Int) : Dbl :=
  let p := roundNat m.natAbs e
  ⟨if m < 0 then -(p.1 : Int) else p.1, p.2⟩

/-- The conversion `(double) i` of an `int`, which is exact. -/
def ofInt (i : Int) : Dbl := ⟨i, 0⟩

/-- The product `a * b` of two doubles. -/
def mul (a b : Dbl) : Dbl := round (a.man * b.man) (a.exp + b.exp)

/-- The quotient `a / b` of two doubles; `none` when `b` is zero.  The quotient
of the mantissas is taken with at least two extra bits and a sticky bit, so
the rounding of the surrogate is the rounding of the exact quotient. -/
def div (a b : Dbl) : Option Dbl :=
  if b.man = 0 then none
  else
    let k := 55 + bitLen b.man.natAbs b.man.natAbs
    let num := a.man.natAbs * 2 ^ k
    let q := num / b.man.natAbs
    let sticky := if num % b.man.natAbs = 0 then 0 else 1
    let p := roundNat (2 * q + sticky) (a.exp - b.exp - k - 1)
    some ⟨if (decide (a.man < 0)) != (decide (b.man < 0)) then -(p.1 : Int) else p.1, p.2⟩

/-- The conversion `(int) a`: truncation toward zero. -/
def toInt (a : Dbl) : Int :=
  if 0 ≤ a.exp then a.man * 2 ^ a.exp.toNat else Int.tdiv a.man (2 ^ (-a.exp).toNat)

/-- The comparison `a < b`. -/
def lt (a b : Dbl) : Bool :=
  decide (a.man * 2 ^ (a.exp - min a.exp b.exp).toNat
    < b.man * 2 ^ (b.exp - min a.exp b.exp).toNat)

/-- The rational number a double stands for. -/
def toRat (a : Dbl) : ℚ := a.man * (2 : ℚ) ^ a.exp

end Dbl

/-- The literal `.01`: the double nearest to 1/100, `0x1.47ae147ae147bp-7`. -/
def pointZeroOne : Dbl := ⟨5764607523034235, -59⟩

/-! ## Loops and buffers -/

/-- The loop `for (int i = lo; i < hi; i++) s = body i s`. -/
def forLoop {σ : Type} (lo hi : Int) (body : Int → σ → σ) (s : σ) : σ :=
  (List.range (hi - lo).toNat).foldl (fun s (k : Nat) => body (lo + (k : Int)) s) s

/-- The store `pointer[i] = c` into a buffer; `none` when `i` is out of bounds. -/
def store (c : Char) (i : Int) (buf : Option (List Char)) : Option (List Char) :=
  buf.bind fun b => if 0 ≤ i ∧ i < b.length then some (b.set i.toNat c) else none

/-- The value of `grid[i][j]`. -/
def cellAt (dimension : Nat) (grid : List Char) (i j : Nat) : Char :=
  grid.getD (i * dimension + j) (Char.ofNat 0)

/-- The grid after `grid[i][j] = c`. -/
def setAt (dimension : Nat) (grid : List Char) (i j : Nat) (c : Char) : List Char :=
  grid.set (i * dimension + j) c

/-- The value of `grid[r][c]` for `int` subscripts. -/
def cellAtInt (dimension : Nat) (grid : List Char) (r c : Int) : Char :=
  if r * dimension + c < 0 then Char.ofNat 0
  else grid.getD (r * dimension + c).toNat (Char.ofNat 0)

/-- The value of `happy[i][j]`. -/
def happyAt (dimension : Nat) (happy : List Bool) (i j : Nat) : Bool :=
  happy.getD (i * dimension + j) false

/-- The C library function `toupper` in the C locale. -/
def toupper (c : Char) : Char := c.toUpper

/-- The C library function `tolower` in the C locale. -/
def tolower (c : Char) : Char := c.toLower

/-! ## The program -/

/-- The local `vacant_cells` of `create_array`. -/
def vacant_cells (size vacancy : Int) : Int :=
  let vacancy_percent := Dbl.mul (Dbl.ofInt vacancy) pointZeroOne
  Dbl.toInt (Dbl.mul (Dbl.ofInt size) vacancy_percent)

/-- The local `endline_cells` of `create_array`. -/
def endline_cells (size vacancy endline : Int) : Int :=
  let endline_percent := Dbl.mul (Dbl.ofInt endline) pointZeroOne
  Dbl.toInt (Dbl.mul (Dbl.ofInt (size - vacant_cells size vacancy)) endline_percent)

/-- The function `create_array`: the buffer `pointer` after the three loops, or
`none` if a store falls outside the buffer. -/
def create_array (pointer : List Char) (size vacancy endline : Int) : Option (List Char) :=
  let vacant := vacant_cells size vacancy
  let endl := endline_cells size vacancy endline
  let p1 := forLoop 0 vacant (store '.') (some pointer)
  let p2 := forLoop vacant (endl + vacant) (store 'e') p1
  forLoop (endl + vacant) size (store 'n') p2

/-- The function `is_valid`. -/
def is_valid (rows cols size : Int) : Bool :=
  if rows < 0 ∨ rows > size - 1 ∨ cols < 0 ∨ cols > size - 1 then false else true

/-- The array `rows` of `return_happiness`. -/
def rows : List Int := [0, 0, -1, -1, -1, 1, 1, 1]

/-- The array `cols` of `return_happiness`. -/
def cols : List Int := [-1, 1, 0, -1, 1, -1, 0, 1]

/-- The counters of the neighbour loop of `return_happiness`. -/
structure Tally where
  empty : Int
  good_neighbor : Int
  invalid_neighbor : Int
deriving DecidableEq, Repr

/-- One iteration of the neighbour loop of `return_happiness`. -/
def tallyStep (dimension : Nat) (grid : List Char) (row col : Int) (type : Char)
    (t : Tally) (i : Nat) : Tally :=
  if is_valid (row + rows.getD i 0) (col + cols.getD i 0) dimension = true then
    if cellAtInt dimension grid (row + rows.getD i 0) (col + cols.getD i 0) = '.' then
      { t with empty := t.empty + 1 }
    else if cellAtInt dimension grid (row + rows.getD i 0) (col + cols.getD i 0) = type then
      { t with good_neighbor := t.good_neighbor + 1 }
    else t
  else { t with invalid_neighbor := t.invalid_neighbor + 1 }

/-- The function `return_happiness`; `none` stands for a division by zero. -/
def return_happiness (dimension : Nat) (grid : List Char) (row col : Int) : Option Dbl :=
  let type := cellAtInt dimension grid row col
  if type = '.' then some (Dbl.ofInt 0)
  else
    let t := (List.range 8).foldl (tallyStep dimension grid row col type) ⟨0, 0, 0⟩
    let real_neighbors := 8 - t.invalid_neighbor
    if real_neighbors = t.empty then some (Dbl.ofInt 1)
    else Dbl.div (Dbl.ofInt t.good_neighbor) (Dbl.ofInt (real_neighbors - t.empty))

/-- The function `check_happiness`. -/
def check_happiness (happiness : Dbl) (strength : Int) : Bool :=
  if Dbl.lt (Dbl.mul happiness (Dbl.ofInt 100)) (Dbl.ofInt strength) = true then false else true

/-- One iteration of a loop whose body may `return`: the state is `none` while
the loop goes on and `some r` once the function has returned `r`, after which
the remaining iterations do nothing. -/
def orReturn {β : Type} (ret : Option β) (body : Option β) : Option β :=
  match ret with
  | some r => some r
  | none => body

/-- The function `look_for_vacancy`: the grid when the function returns, either
from inside the loops after the two stores or at the end with no store. -/
def look_for_vacancy (dimension : Nat) (grid : List Char) (row col : Nat) (curr : Char) :
    List Char :=
  ((List.range dimension).foldl (fun (ret : Option (List Char)) i =>
    (List.range dimension).foldl (fun (ret : Option (List Char)) j =>
      orReturn ret
        (if cellAt dimension grid i j = '.' then
          some (setAt dimension (setAt dimension grid i j (toupper curr)) row col ' ')
        else none)) ret) none).getD grid

/-- The first loop nest of `move_rules`: the relocation scan. -/
def relocate (dimension : Nat) (grid : List Char) (happy : List Bool) : List Char :=
  (List.range dimension).foldl (fun (g : List Char) i =>
    (List.range dimension).foldl (fun (g : List Char) j =>
      if (cellAt dimension g i j = 'e' ∨ cellAt dimension g i j = 'n')
          ∧ happyAt dimension happy i j = false then
        look_for_vacancy dimension g i j (cellAt dimension g i j)
      else g) g) grid

/-- The second loop nest of `move_rules`: the markers are resolved and the
vacated cells counted. -/
def next_gen (dimension : Nat) (grid : List Char) : List Char × Int :=
  (List.range dimension).foldl (fun (st : List Char × Int) row =>
    (List.range dimension).foldl (fun (st : List Char × Int) col =>
      if cellAt dimension st.1 row col = ' ' then
        (setAt dimension st.1 row col '.', st.2 + 1)
      else if cellAt dimension st.1 row col = 'E' then
        (setAt dimension st.1 row col (tolower 'E'), st.2)
      else if cellAt dimension st.1 row col = 'N' then
        (setAt dimension st.1 row col (tolower 'N'), st.2)
      else st) st) (grid, 0)

/-- The function `move_rules`: the grid on return and the returned count. -/
def move_rules (dimension : Nat) (grid : List Char) (happy : List Bool) : List Char × Int :=
  next_gen dimension (relocate dimension grid happy)


/-! ## Reference definitions -/

/-- The eight offsets of the Moore neighbourhood, in reading order. -/
def mooreOffsets : List (Int × Int) :=
  [(-1, -1), (-1, 0), (-1, 1), (0, -1), (0, 1), (1, -1), (1, 0), (1, 1)]

/-- The offsets of `mooreOffsets` that stay on a grid of side `dimension`
when added to `(row, col)`: both coordinates lie in `[0, dimension)`. -/
def validOffsets (dimension : Nat) (row col : Int) : List (Int × Int) :=
  mooreOffsets.filter fun o =>
    decide (0 ≤ row + o.1 ∧ row + o.1 < dimension ∧ 0 ≤ col + o.2 ∧ col + o.2 < dimension)

/-- The happiness of a cell as the specification words it: `0` for a vacant
cell; otherwise, with `valid` the number of on-grid neighbours, `vacant` the
number of those equal to `'.'` and `same` the number of those equal to the
cell's own value, `1` when `valid - vacant = 0` and `same / (valid - vacant)`
otherwise. -/
def happiness_spec (dimension : Nat) (grid : List Char) (row col : Int) : Option Dbl :=
  let own := cellAtInt dimension grid row col
  let valid : Int := (validOffsets dimension row col).length
  let vacant : Int := (validOffsets dimension row col).countP fun o =>
    decide (cellAtInt dimension grid (row + o.1) (col + o.2) = '.')
  let same : Int := (validOffsets dimension row col).countP fun o =>
    decide (cellAtInt dimension grid (row + o.1) (col + o.2) = own)
  if own = '.' then some (Dbl.ofInt 0)
  else if valid - vacant = 0 then some (Dbl.ofInt 1)
  else Dbl.div (Dbl.ofInt same) (Dbl.ofInt (valid - vacant))

/-- The largest integer not above a double. -/
def Dbl.floor (a : Dbl) : Int :=
  if 0 ≤ a.exp then a.man * 2 ^ a.exp.toNat else a.man / 2 ^ (-a.exp).toNat

/-! ## Ghost state -/

/-- The relocation scan of `move_rules` (the loop nest of `relocate`) with a
ghost log: the offset `i * dimension + j` of every cell from which a call of
`look_for_vacancy` moved the occupant away, that is, of every call that changed
the grid, in the order of the calls. -/
def relocate_log (dimension : Nat) (grid : List Char) (happy : List Bool) :
    List Char × List Nat :=
  (List.range dimension).foldl (fun (st : List Char × List Nat) i =>
    (List.range dimension).foldl (fun (st : List Char × List Nat) j =>
      if (cellAt dimension st.1 i j = 'e' ∨ cellAt dimension st.1 i j = 'n')
          ∧ happyAt dimension happy i j = false then
        (look_for_vacancy dimension st.1 i j (cellAt dimension st.1 i j),
          if look_for_vacancy dimension st.1 i j (cellAt dimension st.1 i j) = st.1 then st.2
          else st.2 ++ [i * dimension + j])
      else st) st) (grid, [])

/-- Repeated cycles: `move_rules` applied once for each happy matrix of `hs`. -/
def run_cycles (dimension : Nat) (grid : List Char) (hs : List (List Bool)) : List Char :=
  hs.foldl (fun g happy => (move_rules dimension g happy).1) grid

/-- What the second loop nest of `move_rules` does to one cell: a vacated cell
becomes vacant and a moved marker becomes the occupant again. -/
def resolve (c : Char) : Char :=
  if c = ' ' then '.' else if c = 'E' then tolower 'E' else if c = 'N' then tolower 'N' else c

/-! ## The remaining functions -/

/-- The sum `a + b` of two doubles. -/
def Dbl.add (a b : Dbl) : Dbl :=
  Dbl.round (a.man * 2 ^ (a.exp - min a.exp b.exp).toNat
    + b.man * 2 ^ (b.exp - min a.exp b.exp).toNat) (min a.exp b.exp)

/-- The read `pointer[i]` from a buffer; `none` when `i` is out of bounds. -/
def load (buf : List Char) (i : Int) : Option Char :=
  if 0 ≤ i ∧ i < buf.length then buf[i.toNat]? else none

/-- The loop `while (cond s) s = body s`, run for at most `fuel` tests of the
condition; `none` when the fuel runs out before the condition fails. -/
def whileLoop {σ : Type} : Nat → (σ → Bool) → (σ → σ) → σ → Option σ
  | 0, _, _, _ => none
  | fuel + 1, cond, body, s =>
    if cond s = true then whileLoop fuel cond body (body s) else some s

/-- The function `shuffle_array`: the buffer after the loop, or `none` if a read
or a store falls outside the buffer.  The iteration with counter `i` makes the
only call of `random()` of that iteration, which returns `random i`. -/
def shuffle_array (random : Nat → Int) (pointer : List Char) (size : Int) : Option (List Char) :=
  forLoop 0 (size - 2) (fun i buf =>
    buf.bind fun b =>
      (load b i).bind fun temp =>
        (load b (Int.tmod (random i.toNat) (size - i) + i)).bind fun x =>
          store temp (Int.tmod (random i.toNat) (size - i) + i) (store x i (some b)))
    (some pointer)

/-- One pass of the loop nest of `fill_neighborhood` over the state
`(counter, grid)`; `none` once a read or a store has fallen outside its buffer. -/
def fill_pass (pointer : List Char) (dimension : Nat) (st : Option (Int × List Char)) :
    Option (Int × List Char) :=
  (List.range dimension).foldl (fun (st : Option (Int × List Char)) i =>
    (List.range dimension).foldl (fun (st : Option (Int × List Char)) j =>
      st.bind fun p =>
        (load pointer p.1).bind fun c =>
          (store c (Int.ofNat (i * dimension + j)) (some p.2)).map fun g => (p.1 + 1, g))
      st) st

/-- The function `fill_neighborhood`: `none` when the `while` loop is still
running after `fuel` tests of its condition, `some none` when a read or a store
fell outside its buffer, and `some (some g)` when it returns with grid `g`. -/
def fill_neighborhood (fuel : Nat) (pointer : List Char) (size : Int) (dimension : Nat)
    (grid : List Char) : Option (Option (List Char)) :=
  (whileLoop fuel
    (fun (st : Option (Int × List Char)) => st.elim false fun p => decide (p.1 < size))
    (fill_pass pointer dimension)
    (some (0, grid))).map fun st => st.map Prod.snd

/-- The function `get_sum`: the happy matrix on return and the returned value,
or `none` if `return_happiness` divides by zero.  The local `sum` is not
initialised in the source; `sum0` is the value it happens to hold on entry.  The
grid is only read. -/
def get_sum (sum0 : Dbl) (dimension : Nat) (grid : List Char) (happy : List Bool)
    (strength : Int) : Option (List Bool × Dbl) :=
  (List.range dimension).foldl (fun (st : Option (List Bool × Dbl)) (i : Nat) =>
    (List.range dimension).foldl (fun (st : Option (List Bool × Dbl)) (j : Nat) =>
      st.bind fun p =>
        (return_happiness dimension grid (i : Int) (j : Int)).map fun ind_happiness =>
          (p.1.set (i * dimension + j) (check_happiness ind_happiness strength),
            Dbl.add p.2 ind_happiness))
      st) (some (happy, sum0))

/-- The offsets, in row-major order, of the cells that hold an occupant whose
entry of the happy matrix is `false`. -/
def unhappyCells (dimension : Nat) (grid : List Char) (happy : List Bool) : List Nat :=
  (List.range (dimension * dimension)).filter fun k =>
    decide ((grid.getD k (Char.ofNat 0) = 'e' ∨ grid.getD k (Char.ofNat 0) = 'n')
      ∧ happy.getD k false = false)

/-- The offsets, in row-major order, of the vacant cells. -/
def vacantCells (dimension : Nat) (grid : List Char) : List Nat :=
  (List.range (dimension * dimension)).filter fun k =>
    decide (grid.getD k (Char.ofNat 0) = '.')

/-- The total happiness the header of `get_sum` promises: the happiness of the
cells added up in row-major order, starting from zero. -/
def happiness_total (dimension : Nat) (grid : List Char) : Option Dbl :=
  (List.range dimension).foldl (fun (acc : Option Dbl) (i : Nat) =>
    (List.range dimension).foldl (fun (acc : Option Dbl) (j : Nat) =>
      acc.bind fun t =>
        (return_happiness dimension grid (i : Int) (j : Int)).map fun h => Dbl.add t h)
      acc) (some (Dbl.ofInt 0))

/-- The offsets below `n`, in row-major order, of the cells that hold an
occupant whose entry of the happy matrix is `false`. -/
def unhappyBelow (n : Nat) (grid : List Char) (happy : List Bool) : List Nat :=
  (List.range n).filter fun k =>
    decide ((grid.getD k (Char.ofNat 0) = 'e' ∨ grid.getD k (Char.ofNat 0) = 'n')
      ∧ happy.getD k false = false)

/-! ## Facts about the binary64 model -/

theorem Dbl.bitLen_zero (fuel : Nat) : Dbl.bitLen fuel 0 = 0 := by
  cases fuel <;> simp [Dbl.bitLen]

theorem Dbl.bitLen_spec : ∀ (fuel n : Nat), n ≤ fuel →
    n < 2 ^ Dbl.bitLen fuel n ∧ (n ≠ 0 → 2 ^ (Dbl.bitLen fuel n - 1) ≤ n)
  | 0, n, h => by
    have h0 : n = 0 := by omega
    subst h0
    simp [Dbl.bitLen]
  | fuel + 1, n, h => by
    by_cases hn : n = 0
    · subst hn
      simp [Dbl.bitLen]
    · have ih := Dbl.bitLen_spec fuel (n / 2) (by omega)
      simp only [Dbl.bitLen, hn, if_false]
      refine ⟨?_, fun _ => ?_⟩
      · have h1 := ih.1
        rw [pow_succ]
        omega
      · simp only [Nat.add_sub_cancel]
        by_cases h2 : n / 2 = 0
        · rw [h2, Dbl.bitLen_zero]
          simp
          omega
        · have h3 := ih.2 h2
          have h4 : Dbl.bitLen fuel (n / 2) ≠ 0 := by
            intro h5
            have h6 := ih.1
            rw [h5] at h6
            simp at h6
            exact h2 h6
          obtain ⟨b, hb⟩ := Nat.exists_eq_succ_of_ne_zero h4
          rw [hb] at h3 ⊢
          simp only [Nat.succ_eq_add_one, Nat.add_sub_cancel] at h3
          rw [pow_succ]
          omega

/-- Rounding never crosses a representable bound: if `n * 2 ^ (-t) ≤ K` for an
integer `K < 2 ^ 53`, the rounded value is at most `K` as well. -/
theorem Dbl.roundNat_le (n K t : Nat) (hK : K < 2 ^ 53) (h : n ≤ K * 2 ^ t) :
    (Dbl.roundNat n (-(t : Int))).2 ≤ 0 ∧
      (Dbl.roundNat n (-(t : Int))).1 ≤ K * 2 ^ (-(Dbl.roundNat n (-(t : Int))).2).toNat := by
  unfold Dbl.roundNat
  by_cases hs : Dbl.bitLen n n - 53 = 0
  · simp only [hs, if_true]
    refine ⟨by omega, ?_⟩
    simpa using h
  · simp only [hs, if_false]
    obtain ⟨hlt, hge⟩ := Dbl.bitLen_spec n n le_rfl
    have hn : n ≠ 0 := by
      intro h0
      rw [h0, Dbl.bitLen_zero] at hs
      exact hs rfl
    have hge := hge hn
    generalize hB : Dbl.bitLen n n = B at *
    generalize hS : B - 53 = s at *
    have hBs : B - 1 = s + 52 := by omega
    rw [hBs] at hge
    have hst : s ≤ t := by
      have h1 : 2 ^ (s + 52) < 2 ^ (53 + t) := by
        calc 2 ^ (s + 52) ≤ n := hge
          _ ≤ K * 2 ^ t := h
          _ < 2 ^ 53 * 2 ^ t := Nat.mul_lt_mul_of_pos_right hK (Nat.two_pow_pos t)
          _ = 2 ^ (53 + t) := (pow_add 2 53 t).symm
      have h2 := (Nat.pow_lt_pow_iff_right (by norm_num : 1 < 2)).mp h1
      omega
    have hexp : (-(-(t : Int) + (s : Int))).toNat = t - s := by omega
    refine ⟨by omega, ?_⟩
    show _ ≤ K * 2 ^ (-(-(t : Int) + (s : Int))).toNat
    rw [hexp]
    have hP : 0 < 2 ^ s := Nat.two_pow_pos s
    have hsplit : K * 2 ^ t = (K * 2 ^ (t - s)) * 2 ^ s := by
      rw [Nat.mul_assoc, ← pow_add]
      congr 2
      omega
    rw [hsplit] at h
    generalize K * 2 ^ (t - s) = M at *
    have hdm := Nat.div_add_mod n (2 ^ s)
    have hq : n / 2 ^ s ≤ M := Nat.div_le_of_le_mul (by rw [Nat.mul_comm]; exact h)
    split
    · rename_i hup
      have hr : 0 < n % 2 ^ s := by
        have hh : 0 < 2 ^ (s - 1) := Nat.two_pow_pos _
        rcases hup with h1 | ⟨h1, _⟩ <;> omega
      have hlt2 : 2 ^ s * (n / 2 ^ s) < M * 2 ^ s := by omega
      rw [Nat.mul_comm] at hlt2
      have := Nat.lt_of_mul_lt_mul_right hlt2
      omega
    · exact hq


theorem Dbl.toInt_mul_le (N : Nat) (hN : N < 2 ^ 53) (p : Dbl) (hp0 : 0 ≤ p.man)
    (hpe : p.exp ≤ 0) (hp1 : p.man ≤ 2 ^ (-p.exp).toNat) :
    0 ≤ Dbl.toInt (Dbl.mul (Dbl.ofInt N) p) ∧ Dbl.toInt (Dbl.mul (Dbl.ofInt N) p) ≤ N := by
  obtain ⟨pm, pe⟩ := p
  obtain ⟨m, rfl⟩ := Int.eq_ofNat_of_zero_le hp0
  obtain ⟨t, ht⟩ : ∃ t : Nat, pe = -(t : Int) := ⟨(-pe).toNat, by simp at hpe; omega⟩
  subst ht
  simp only [neg_neg, Int.toNat_ofNat] at hp1
  have hm : m ≤ 2 ^ t := by exact_mod_cast hp1
  have hprod : N * m ≤ N * 2 ^ t := Nat.mul_le_mul_left N hm
  obtain ⟨he, hq⟩ := Dbl.roundNat_le (N * m) N t hN hprod
  have hnat : ((N : Int) * (m : Int)).natAbs = N * m := by
    rw [← Int.natCast_mul]; exact Int.natAbs_ofNat _
  have hnn : ¬ ((N : Int) * (m : Int) < 0) := by
    have : (0 : Int) ≤ (N : Int) * (m : Int) := by positivity
    omega
  simp only [Dbl.mul, Dbl.ofInt, Dbl.round, hnat, hnn, if_false, zero_add, Dbl.toInt]
  generalize Dbl.roundNat (N * m) (-(t : Int)) = r at he hq
  obtain ⟨q, e⟩ := r
  simp only at he hq ⊢
  split
  · have he0 : e = 0 := by omega
    subst he0
    simp at hq ⊢
    exact_mod_cast hq
  · have hpos : (0 : Int) ≤ ((2 ^ (-e).toNat : Nat) : Int) := Int.ofNat_nonneg _
    have hcast : ((2 : Int) ^ (-e).toNat) = ((2 ^ (-e).toNat : Nat) : Int) := by push_cast; rfl
    rw [hcast, Int.tdiv_eq_ediv (Int.ofNat_nonneg q) hpos, ← Int.natCast_div]
    refine ⟨Int.ofNat_nonneg _, ?_⟩
    have : q / 2 ^ (-e).toNat ≤ N := Nat.div_le_of_le_mul (by rw [Nat.mul_comm]; exact hq)
    exact_mod_cast this

theorem percent_range (v : Int) (h1 : 1 ≤ v) (h2 : v ≤ 99) :
    0 ≤ (Dbl.mul (Dbl.ofInt v) pointZeroOne).man ∧ (Dbl.mul (Dbl.ofInt v) pointZeroOne).exp ≤ 0 ∧
      (Dbl.mul (Dbl.ofInt v) pointZeroOne).man
        ≤ 2 ^ (-(Dbl.mul (Dbl.ofInt v) pointZeroOne).exp).toNat := by
  interval_cases v <;> decide

theorem vacant_cells_range (size vacancy : Int) (hs0 : 0 ≤ size) (hs : size < 2 ^ 31)
    (h1 : 1 ≤ vacancy) (h2 : vacancy ≤ 99) :
    0 ≤ vacant_cells size vacancy ∧ vacant_cells size vacancy ≤ size := by
  obtain ⟨N, rfl⟩ := Int.eq_ofNat_of_zero_le hs0
  obtain ⟨a, b, c⟩ := percent_range vacancy h1 h2
  have hN : N < 2 ^ 53 := by
    have : (N : Int) < 2 ^ 53 := lt_trans hs (by norm_num)
    exact_mod_cast this
  exact Dbl.toInt_mul_le N hN _ a b c

theorem endline_cells_range (size vacancy endline : Int) (hs0 : 0 ≤ size) (hs : size < 2 ^ 31)
    (h1 : 1 ≤ vacancy) (h2 : vacancy ≤ 99) (h3 : 1 ≤ endline) (h4 : endline ≤ 99) :
    0 ≤ endline_cells size vacancy endline ∧
      endline_cells size vacancy endline ≤ size - vacant_cells size vacancy := by
  obtain ⟨hv0, hv1⟩ := vacant_cells_range size vacancy hs0 hs h1 h2
  obtain ⟨N, hN⟩ := Int.eq_ofNat_of_zero_le (show 0 ≤ size - vacant_cells size vacancy by omega)
  obtain ⟨a, b, c⟩ := percent_range endline h3 h4
  have hN53 : N < 2 ^ 53 := by
    have : (N : Int) < 2 ^ 53 := by
      rw [← hN]
      have : size - vacant_cells size vacancy ≤ size := by omega
      exact lt_of_le_of_lt this (lt_trans hs (by norm_num))
    exact_mod_cast this
  have := Dbl.toInt_mul_le N hN53 _ a b c
  unfold endline_cells
  simp only
  rw [hN]
  exact this

/-! ## Facts about `create_array` -/

theorem store_loop (c : Char) (b : List Char) : ∀ (n lo : Nat), lo + n ≤ b.length →
    (List.range n).foldl (fun s (k : Nat) => store c ((lo : Int) + (k : Int)) s) (some b)
      = some (b.take lo ++ List.replicate n c ++ b.drop (lo + n))
  | 0, lo, _ => by simp
  | n + 1, lo, h => by
    rw [List.range_succ, List.foldl_append, store_loop c b n lo (by omega)]
    have hlen : (b.take lo ++ List.replicate n c ++ b.drop (lo + n)).length = b.length := by
      simp only [List.length_append, List.length_take, List.length_replicate, List.length_drop]
      omega
    have hidx : ((lo : Int) + (n : Int)).toNat = lo + n := by omega
    simp only [List.foldl_cons, List.foldl_nil, store, Option.some_bind, hlen, hidx]
    rw [if_pos (by omega)]
    congr 1
    apply List.ext_getElem
    · simp only [List.length_set, List.length_append, List.length_take, List.length_replicate,
        List.length_drop]
      omega
    · intro i h1 h2
      simp only [List.getElem_set, List.getElem_append, List.length_take, List.length_replicate,
        List.length_append, List.getElem_take, List.getElem_replicate, List.getElem_drop]
      have hmin : min lo b.length = lo := by omega
      simp only [hmin]
      by_cases ha : i < lo
      · simp [ha, show i < lo + n by omega, show i < lo + (n + 1) by omega,
          show ¬ (lo + n = i) by omega]
      · by_cases hb : i < lo + n
        · simp [ha, hb, show i < lo + (n + 1) by omega, show ¬ (lo + n = i) by omega]
        · by_cases hc : i = lo + n
          · simp [ha, hb, hc]
          · simp [ha, hb, show ¬ (i < lo + (n + 1)) by omega, show ¬ (lo + n = i) by omega]
            congr 1
            omega

theorem forLoop_store (c : Char) (b : List Char) (lo hi : Nat) (h1 : lo ≤ hi)
    (h2 : hi ≤ b.length) :
    forLoop (lo : Int) (hi : Int) (store c) (some b)
      = some (b.take lo ++ List.replicate (hi - lo) c ++ b.drop hi) := by
  unfold forLoop
  have hn : ((hi : Int) - (lo : Int)).toNat = hi - lo := by omega
  rw [hn, store_loop c b (hi - lo) lo (by omega)]
  have hh : lo + (hi - lo) = hi := by omega
  rw [hh]

/-- The three loops of `create_array` with non-negative counts that fit the
buffer write three contiguous blocks. -/
theorem create_array_blocks (pointer : List Char) (size vacancy endline : Int) (n v e : Nat)
    (hsize : size = n) (hlen : pointer.length = n) (hve : v + e ≤ n)
    (hv : vacant_cells size vacancy = v) (he : endline_cells size vacancy endline = e) :
    create_array pointer size vacancy endline
      = some (List.replicate v '.' ++ List.replicate e 'e'
          ++ List.replicate (n - (v + e)) 'n') := by
  unfold create_array
  simp only [hv, he]
  subst hsize
  have h1 : (e : Int) + (v : Int) = ((v + e : Nat) : Int) := by push_cast; ring
  have s1 : forLoop 0 (v : Int) (store '.') (some pointer)
      = some (List.replicate v '.' ++ pointer.drop v) := by
    have := forLoop_store '.' pointer 0 v (Nat.zero_le _) (by omega)
    simpa using this
  have l1 : (List.replicate v '.' ++ pointer.drop v).length = n := by
    simp only [List.length_append, List.length_replicate, List.length_drop]
    omega
  have s2 : forLoop (v : Int) ((v + e : Nat) : Int) (store 'e')
      (some (List.replicate v '.' ++ pointer.drop v))
      = some (List.replicate v '.' ++ List.replicate e 'e' ++ pointer.drop (v + e)) := by
    rw [forLoop_store 'e' _ v (v + e) (by omega) (by omega)]
    refine congrArg some ?_
    have t1 : List.take v (List.replicate v '.' ++ List.drop v pointer) = List.replicate v '.' := by
      rw [List.take_append_of_le_length (by simp)]
      simp
    have t2 : List.drop (v + e) (List.replicate v '.' ++ List.drop v pointer)
        = List.drop (v + e) pointer := by
      have := @List.drop_append _ (List.replicate v '.') (List.drop v pointer) e
      simp only [List.length_replicate, List.drop_drop] at this
      exact this
    rw [t1, t2]
    simp
  have l2 : (List.replicate v '.' ++ List.replicate e 'e' ++ pointer.drop (v + e)).length = n := by
    simp only [List.length_append, List.length_replicate, List.length_drop]
    omega
  rw [s1, h1, s2, forLoop_store 'n' _ (v + e) n (by omega) (by omega)]
  refine congrArg some ?_
  have t3 : List.take (v + e)
      (List.replicate v '.' ++ List.replicate e 'e' ++ List.drop (v + e) pointer)
      = List.replicate v '.' ++ List.replicate e 'e' := by
    rw [List.take_append_of_le_length (by simp)]
    simp
  have t4 : List.drop n
      (List.replicate v '.' ++ List.replicate e 'e' ++ List.drop (v + e) pointer) = [] := by
    apply List.drop_of_length_le
    omega
  rw [t3, t4]
  simp

/-- C3: for every valid configuration `create_array` fills the whole pool
with three contiguous blocks: `v` vacant markers, then `e` endline markers,
then newline markers to the end, where `v` and `e` are the non-negative counts
the function computes, `v + e` does not exceed the pool size, and the three
block lengths sum to `dimension * dimension`. -/
theorem create_array_three_blocks (dimension : Nat) (vacancy endline : Int)
    (pointer : List Char) (hd1 : 5 ≤ dimension) (hd2 : dimension ≤ 39)
    (hv1 : 1 ≤ vacancy) (hv2 : vacancy ≤ 99) (he1 : 1 ≤ endline) (he2 : endline ≤ 99)
    (hlen : pointer.length = dimension * dimension) :
    ∃ v e : Nat,
      vacant_cells ((dimension * dimension : Nat) : Int) vacancy = (v : Int) ∧
      endline_cells ((dimension * dimension : Nat) : Int) vacancy endline = (e : Int) ∧
      v + e ≤ dimension * dimension ∧
      create_array pointer ((dimension * dimension : Nat) : Int) vacancy endline
        = some (List.replicate v '.' ++ List.replicate e 'e'
            ++ List.replicate (dimension * dimension - (v + e)) 'n') ∧
      v + e + (dimension * dimension - (v + e)) = dimension * dimension := by
  have _ := hd1
  have hsz : dimension * dimension ≤ 39 * 39 := Nat.mul_le_mul hd2 hd2
  have hs0 : (0 : Int) ≤ ((dimension * dimension : Nat) : Int) := Int.ofNat_nonneg _
  have hs1 : ((dimension * dimension : Nat) : Int) < 2 ^ 31 := by
    have : ((dimension * dimension : Nat) : Int) ≤ ((39 * 39 : Nat) : Int) := by
      exact_mod_cast hsz
    exact lt_of_le_of_lt this (by norm_num)
  obtain ⟨a0, a1⟩ := vacant_cells_range _ vacancy hs0 hs1 hv1 hv2
  obtain ⟨b0, b1⟩ := endline_cells_range _ vacancy endline hs0 hs1 hv1 hv2 he1 he2
  obtain ⟨v, hv⟩ := Int.eq_ofNat_of_zero_le a0
  obtain ⟨e, he⟩ := Int.eq_ofNat_of_zero_le b0
  have hve : v + e ≤ dimension * dimension := by
    rw [hv, he] at b1
    omega
  exact ⟨v, e, hv, he, hve,
    create_array_blocks pointer _ vacancy endline _ v e rfl hlen hve hv he, by omega⟩

theorem create_array_three_blocks_witness :
    ∃ v e : Nat,
      vacant_cells ((5 * 5 : Nat) : Int) 20 = (v : Int) ∧
      endline_cells ((5 * 5 : Nat) : Int) 20 60 = (e : Int) ∧
      v + e ≤ 5 * 5 ∧
      create_array (List.replicate 25 ' ') ((5 * 5 : Nat) : Int) 20 60
        = some (List.replicate v '.' ++ List.replicate e 'e'
            ++ List.replicate (5 * 5 - (v + e)) 'n') ∧
      v + e + (5 * 5 - (v + e)) = 5 * 5 :=
  create_array_three_blocks 5 20 60 (List.replicate 25 ' ') (by decide) (by decide)
    (by decide) (by decide) (by decide) (by decide) (by decide)

/-- C2 (the code departs from the claim): at `dimension = 10`,
`vacancy = 29`, `endline = 60` the floor formulas give 29 vacant markers and
`(100 - 29) * 60 / 100 = 42` endline markers, but `create_array` computes
`100 * (29 * .01)` in binary64, which is just below 29, and writes 28 vacant
markers, 43 endline markers and 29 newline markers. -/
theorem create_array_not_floor :
    (100 * 29 / 100 : Int) = 29 ∧ ((100 - 29) * 60 / 100 : Int) = 42 ∧
    vacant_cells 100 29 = 28 ∧ endline_cells 100 29 60 = 43 ∧
    create_array (List.replicate 100 ' ') 100 29 60
      = some (List.replicate 28 '.' ++ List.replicate 43 'e' ++ List.replicate 29 'n') := by
  have hv : vacant_cells 100 29 = 28 := by decide
  have he : endline_cells 100 29 60 = 43 := by decide
  refine ⟨by decide, by decide, hv, he, ?_⟩
  exact create_array_blocks (List.replicate 100 ' ') 100 29 60 100 28 43 rfl (by simp)
    (by decide) hv he

/-! ## Facts about `return_happiness` -/

/-- The offsets in the order of the arrays `rows` and `cols`. -/
theorem offsets_perm :
    List.Perm [((0 : Int), (-1 : Int)), (0, 1), (-1, 0), (-1, -1), (-1, 1), (1, -1), (1, 0), (1, 1)]
      mooreOffsets := by
  decide

/-- The neighbour loop of `return_happiness` over an arbitrary list of offsets. -/
theorem tally_foldl (dimension : Nat) (grid : List Char) (row col : Int) (type : Char)
    (htype : type ≠ '.') (F : Tally → Int × Int → Tally)
    (hF : ∀ t o, F t o =
      if is_valid (row + o.1) (col + o.2) dimension = true then
        if cellAtInt dimension grid (row + o.1) (col + o.2) = '.' then
          { t with empty := t.empty + 1 }
        else if cellAtInt dimension grid (row + o.1) (col + o.2) = type then
          { t with good_neighbor := t.good_neighbor + 1 }
        else t
      else { t with invalid_neighbor := t.invalid_neighbor + 1 }) :
    ∀ (l : List (Int × Int)) (t : Tally),
      l.foldl F t =
        ⟨t.empty + ((l.filter fun o => decide (0 ≤ row + o.1 ∧ row + o.1 < dimension
              ∧ 0 ≤ col + o.2 ∧ col + o.2 < dimension)).countP fun o =>
            decide (cellAtInt dimension grid (row + o.1) (col + o.2) = '.') : Nat),
          t.good_neighbor + ((l.filter fun o => decide (0 ≤ row + o.1 ∧ row + o.1 < dimension
              ∧ 0 ≤ col + o.2 ∧ col + o.2 < dimension)).countP fun o =>
            decide (cellAtInt dimension grid (row + o.1) (col + o.2) = type) : Nat),
          t.invalid_neighbor + ((l.length : Int) - ((l.filter fun o =>
            decide (0 ≤ row + o.1 ∧ row + o.1 < dimension
              ∧ 0 ≤ col + o.2 ∧ col + o.2 < dimension)).length : Nat))⟩
  | [], t => by simp
  | o :: l, t => by
    rw [List.foldl_cons, tally_foldl dimension grid row col type htype F hF l, hF]
    by_cases hv : 0 ≤ row + o.1 ∧ row + o.1 < dimension ∧ 0 ≤ col + o.2 ∧ col + o.2 < dimension
    · have hval : is_valid (row + o.1) (col + o.2) dimension = true := by
        simp only [is_valid]
        rw [if_neg (by omega)]
      rw [if_pos hval, List.filter_cons_of_pos (by simpa using hv)]
      by_cases hdot : cellAtInt dimension grid (row + o.1) (col + o.2) = '.'
      · have hne : ¬ (cellAtInt dimension grid (row + o.1) (col + o.2) = type) := by
          rw [hdot]; exact fun h => htype h.symm
        rw [if_pos hdot, List.countP_cons_of_pos _ _ (by simpa using hdot),
          List.countP_cons_of_neg _ _ (by simpa using hne)]
        simp only [List.length_cons, Tally.mk.injEq]
        refine ⟨by push_cast; ring, trivial, by push_cast; ring⟩
      · rw [if_neg hdot, List.countP_cons_of_neg _ _ (by simpa using hdot)]
        by_cases hty : cellAtInt dimension grid (row + o.1) (col + o.2) = type
        · rw [if_pos hty, List.countP_cons_of_pos _ _ (by simpa using hty)]
          simp only [List.length_cons, Tally.mk.injEq]
          refine ⟨trivial, by push_cast; ring, by push_cast; ring⟩
        · rw [if_neg hty, List.countP_cons_of_neg _ _ (by simpa using hty)]
          simp only [List.length_cons, Tally.mk.injEq]
          refine ⟨trivial, trivial, by push_cast; ring⟩
    · have hval : ¬ (is_valid (row + o.1) (col + o.2) dimension = true) := by
        simp only [is_valid]
        rw [if_pos (by omega)]
        simp
      rw [if_neg hval, List.filter_cons_of_neg (by simpa using hv)]
      simp only [List.length_cons, Tally.mk.injEq]
      refine ⟨trivial, trivial, by push_cast; ring⟩

/-- The counters of `return_happiness` after its neighbour loop, for an occupied cell. -/
theorem tally_counts (dimension : Nat) (grid : List Char) (row col : Int) (type : Char)
    (htype : type ≠ '.') :
    (List.range 8).foldl (tallyStep dimension grid row col type) ⟨0, 0, 0⟩ =
      ⟨((validOffsets dimension row col).countP fun o =>
          decide (cellAtInt dimension grid (row + o.1) (col + o.2) = '.') : Nat),
        ((validOffsets dimension row col).countP fun o =>
          decide (cellAtInt dimension grid (row + o.1) (col + o.2) = type) : Nat),
        8 - ((validOffsets dimension row col).length : Nat)⟩ := by
  have hrange : (List.range 8).foldl (tallyStep dimension grid row col type) ⟨0, 0, 0⟩ =
      [((0 : Int), (-1 : Int)), (0, 1), (-1, 0), (-1, -1), (-1, 1), (1, -1), (1, 0),
        (1, 1)].foldl (fun t o => tallyStep dimension grid (row + o.1) (col + o.2) type t 8)
        ⟨0, 0, 0⟩ := by
    simp [List.range, List.range.loop, tallyStep, rows, cols]
  rw [hrange, tally_foldl dimension grid row col type htype _ (fun t o => by
    simp [tallyStep, rows, cols])]
  have hp := offsets_perm.filter fun o => decide (0 ≤ row + o.1 ∧ row + o.1 < dimension
    ∧ 0 ≤ col + o.2 ∧ col + o.2 < dimension)
  simp only [validOffsets]
  rw [hp.countP_eq, hp.countP_eq, hp.length_eq]
  simp

/-- The number of on-grid neighbours is at most eight, and the vacant and
same-valued neighbours of an occupied cell together are at most that many. -/
theorem neighbour_counts_le (dimension : Nat) (grid : List Char) (row col : Int) (type : Char)
    (htype : type ≠ '.') :
    (validOffsets dimension row col).length ≤ 8 ∧
    ((validOffsets dimension row col).countP fun o =>
        decide (cellAtInt dimension grid (row + o.1) (col + o.2) = '.'))
      + ((validOffsets dimension row col).countP fun o =>
        decide (cellAtInt dimension grid (row + o.1) (col + o.2) = type))
      ≤ (validOffsets dimension row col).length := by
  constructor
  · exact (List.length_filter_le _ _).trans (by simp [mooreOffsets])
  · generalize validOffsets dimension row col = l
    induction l with
    | nil => simp
    | cons o l ih =>
      by_cases hdot : cellAtInt dimension grid (row + o.1) (col + o.2) = '.'
      · have hne : ¬ (cellAtInt dimension grid (row + o.1) (col + o.2) = type) := by
          rw [hdot]; exact fun h => htype h.symm
        rw [List.countP_cons_of_pos _ _ (by simpa using hdot),
          List.countP_cons_of_neg _ _ (by simpa using hne), List.length_cons]
        omega
      · rw [List.countP_cons_of_neg _ _ (by simpa using hdot), List.length_cons]
        by_cases hty : cellAtInt dimension grid (row + o.1) (col + o.2) = type
        · rw [List.countP_cons_of_pos _ _ (by simpa using hty)]
          omega
        · rw [List.countP_cons_of_neg _ _ (by simpa using hty)]
          omega

/-- The value of `return_happiness` on an occupied cell, in terms of the
neighbour counts. -/
theorem return_happiness_occupied (dimension : Nat) (grid : List Char) (row col : Int)
    (hocc : cellAtInt dimension grid row col ≠ '.') :
    return_happiness dimension grid row col =
      if (((validOffsets dimension row col).length : Nat) : Int)
          - (((validOffsets dimension row col).countP fun o =>
            decide (cellAtInt dimension grid (row + o.1) (col + o.2) = '.') : Nat) : Int) = 0
      then some (Dbl.ofInt 1)
      else Dbl.div
        (Dbl.ofInt (((validOffsets dimension row col).countP fun o =>
          decide (cellAtInt dimension grid (row + o.1) (col + o.2)
            = cellAtInt dimension grid row col) : Nat) : Int))
        (Dbl.ofInt ((((validOffsets dimension row col).length : Nat) : Int)
          - (((validOffsets dimension row col).countP fun o =>
            decide (cellAtInt dimension grid (row + o.1) (col + o.2) = '.') : Nat) : Int))) := by
  unfold return_happiness
  simp only [hocc, if_false]
  rw [tally_counts dimension grid row col _ hocc]
  have hle := (neighbour_counts_le dimension grid row col _ hocc).1
  simp only
  have h8 : (8 : Int) - (8 - ((validOffsets dimension row col).length : Nat))
      = ((validOffsets dimension row col).length : Nat) := by omega
  rw [h8]
  by_cases hz : (((validOffsets dimension row col).length : Nat) : Int)
      = (((validOffsets dimension row col).countP fun o =>
        decide (cellAtInt dimension grid (row + o.1) (col + o.2) = '.') : Nat) : Int)
  · rw [if_pos hz, if_pos (by omega)]
  · rw [if_neg hz, if_neg (by omega)]

/-- C4: `return_happiness` equals its reference definition `happiness_spec`:
`0` for a vacant cell, otherwise `1` when no on-grid neighbour is occupied and
`same / (valid - vacant)` otherwise, where only the neighbours with both
coordinates in `[0, dimension)` are counted. -/
theorem return_happiness_eq_spec (dimension : Nat) (grid : List Char) (row col : Int) :
    return_happiness dimension grid row col = happiness_spec dimension grid row col := by
  by_cases hdot : cellAtInt dimension grid row col = '.'
  · unfold return_happiness happiness_spec
    simp only [hdot, if_true]
  · rw [return_happiness_occupied dimension grid row col hdot]
    unfold happiness_spec
    simp only [hdot, if_false]

/-! ## Facts about comparisons and `check_happiness` -/

theorem Dbl.toRat_unit (h : Dbl) (he : h.exp ≤ 0) (h0 : 0 ≤ h.man)
    (h1 : h.man ≤ 2 ^ (-h.exp).toNat) : 0 ≤ h.toRat ∧ h.toRat ≤ 1 := by
  obtain ⟨m, e⟩ := h
  simp only at he h0 h1
  obtain ⟨t, rfl⟩ : ∃ t : Nat, e = -(t : Int) := ⟨(-e).toNat, by omega⟩
  simp only [neg_neg, Int.toNat_ofNat] at h1
  have hpos : (0 : ℚ) < (2 : ℚ) ^ t := by positivity
  have hm0 : (0 : ℚ) ≤ (m : ℚ) := by exact_mod_cast h0
  have hm1 : (m : ℚ) ≤ (2 : ℚ) ^ t := by exact_mod_cast h1
  simp only [Dbl.toRat, zpow_neg, zpow_natCast]
  constructor
  · positivity
  · rw [← div_eq_mul_inv, div_le_one hpos]
    exact hm1

theorem Dbl.lt_iff (a b : Dbl) : Dbl.lt a b = true ↔ a.toRat < b.toRat := by
  obtain ⟨am, ae⟩ := a
  obtain ⟨bm, be⟩ := b
  simp only [Dbl.lt, Dbl.toRat, decide_eq_true_eq]
  set e := min ae be with he
  have h2 : (0 : ℚ) < (2 : ℚ) ^ e := by positivity
  have ha : ((am * 2 ^ (ae - e).toNat : Int) : ℚ) * (2 : ℚ) ^ e = (am : ℚ) * (2 : ℚ) ^ ae := by
    have hn : ((ae - e).toNat : Int) = ae - e := Int.toNat_of_nonneg (by omega)
    push_cast
    rw [mul_assoc, ← zpow_natCast (2 : ℚ), hn, ← zpow_add₀ (by norm_num : (2 : ℚ) ≠ 0)]
    congr 2
    ring
  have hb : ((bm * 2 ^ (be - e).toNat : Int) : ℚ) * (2 : ℚ) ^ e = (bm : ℚ) * (2 : ℚ) ^ be := by
    have hn : ((be - e).toNat : Int) = be - e := Int.toNat_of_nonneg (by omega)
    push_cast
    rw [mul_assoc, ← zpow_natCast (2 : ℚ), hn, ← zpow_add₀ (by norm_num : (2 : ℚ) ≠ 0)]
    congr 2
    ring
  rw [← ha, ← hb, mul_lt_mul_right h2]
  exact Int.cast_lt.symm

theorem Dbl.toRat_ofInt (i : Int) : (Dbl.ofInt i).toRat = i := by
  simp [Dbl.toRat, Dbl.ofInt]

theorem Dbl.not_lt_ofInt_iff (x : Dbl) (s : Int) :
    ¬ (Dbl.lt x (Dbl.ofInt s) = true) ↔ s ≤ Dbl.floor x := by
  obtain ⟨m, e⟩ := x
  simp only [Dbl.lt, Dbl.ofInt, Dbl.floor, decide_eq_true_eq, not_lt]
  by_cases he : 0 ≤ e
  · have hmin : min e 0 = 0 := by omega
    simp only [hmin, he, if_true, sub_zero, Int.toNat_zero, pow_zero, mul_one]
  · have hmin : min e 0 = e := by omega
    have hsub : (0 : Int) - e = -e := by ring
    simp only [hmin, he, if_false, sub_self, Int.toNat_zero, pow_zero, mul_one, hsub]
    have hpos : (0 : Int) < 2 ^ (-e).toNat := by positivity
    rw [Int.le_ediv_iff_mul_le hpos]

/-- The comparison of `check_happiness` against an `int` strength is a
comparison with the floor of the scaled happiness. -/
theorem check_happiness_iff_floor (h : Dbl) (s : Int) :
    check_happiness h s = true ↔ s ≤ Dbl.floor (Dbl.mul h (Dbl.ofInt 100)) := by
  rw [← Dbl.not_lt_ofInt_iff]
  unfold check_happiness
  by_cases hlt : Dbl.lt (Dbl.mul h (Dbl.ofInt 100)) (Dbl.ofInt s) = true
  · simp [hlt]
  · simp [hlt]

/-- The quotient of two small counters: it exists, lies in `[0, 1]`, and
scaled by 100 its floor is the exact integer quotient `100 * same / real`. -/
theorem div_counters (same real : Int) (h0 : 0 ≤ same) (h1 : same ≤ real) (h2 : 1 ≤ real)
    (h3 : real ≤ 8) :
    ∃ h, Dbl.div (Dbl.ofInt same) (Dbl.ofInt real) = some h ∧ h.exp ≤ 0 ∧ 0 ≤ h.man ∧
      h.man ≤ 2 ^ (-h.exp).toNat ∧
      Dbl.floor (Dbl.mul h (Dbl.ofInt 100)) = 100 * same / real := by
  interval_cases real <;> interval_cases same <;>
    exact ⟨_, rfl, by decide, by decide, by decide, by decide⟩

/-- C5: for an occupied cell `return_happiness` returns a value (the
division is never by zero) and the value lies in `[0, 1]`, whatever the grid
holds. -/
theorem return_happiness_unit (dimension : Nat) (grid : List Char) (row col : Int)
    (hocc : cellAtInt dimension grid row col ≠ '.') :
    ∃ h, return_happiness dimension grid row col = some h ∧ 0 ≤ h.toRat ∧ h.toRat ≤ 1 := by
  rw [return_happiness_occupied dimension grid row col hocc]
  obtain ⟨h8, hsum⟩ := neighbour_counts_le dimension grid row col _ hocc
  split
  · exact ⟨Dbl.ofInt 1, rfl, by simp [Dbl.toRat_ofInt]⟩
  · rename_i hne
    obtain ⟨h, hdiv, he, hm0, hm1, _⟩ := div_counters
      (((validOffsets dimension row col).countP fun o =>
        decide (cellAtInt dimension grid (row + o.1) (col + o.2)
          = cellAtInt dimension grid row col) : Nat) : Int)
      ((((validOffsets dimension row col).length : Nat) : Int)
        - (((validOffsets dimension row col).countP fun o =>
          decide (cellAtInt dimension grid (row + o.1) (col + o.2) = '.') : Nat) : Int))
      (by omega) (by omega) (by omega) (by omega)
    exact ⟨h, hdiv, Dbl.toRat_unit h he hm0 hm1⟩

theorem return_happiness_unit_witness :
    cellAtInt 3 ['e', 'n', '.', 'n', 'e', 'n', '.', 'e', 'e'] 1 1 ≠ '.' ∧
    ∃ h, return_happiness 3 ['e', 'n', '.', 'n', 'e', 'n', '.', 'e', 'e'] 1 1 = some h
      ∧ 0 ≤ h.toRat ∧ h.toRat ≤ 1 :=
  ⟨by decide, return_happiness_unit 3 ['e', 'n', '.', 'n', 'e', 'n', '.', 'e', 'e'] 1 1
    (by decide)⟩

/-- C6: an occupied cell all of whose on-grid neighbours are vacant has
happiness exactly `1`, and that value passes `check_happiness` for every
strength in `[1, 99]`. -/
theorem return_happiness_isolated (dimension : Nat) (grid : List Char) (row col : Int)
    (hocc : cellAtInt dimension grid row col ≠ '.')
    (hall : ∀ o ∈ validOffsets dimension row col,
      cellAtInt dimension grid (row + o.1) (col + o.2) = '.') :
    ∃ h, return_happiness dimension grid row col = some h ∧ h.toRat = 1 ∧
      ∀ s : Int, 1 ≤ s → s ≤ 99 → check_happiness h s = true := by
  refine ⟨Dbl.ofInt 1, ?_, by simp [Dbl.toRat_ofInt], ?_⟩
  · rw [return_happiness_occupied dimension grid row col hocc]
    have hcount : ((validOffsets dimension row col).countP fun o =>
        decide (cellAtInt dimension grid (row + o.1) (col + o.2) = '.'))
        = (validOffsets dimension row col).length := by
      rw [List.countP_eq_length]
      intro o ho
      simpa using hall o ho
    rw [hcount, if_pos (by omega)]
  · intro s _ hs
    rw [check_happiness_iff_floor]
    have hfl : Dbl.floor (Dbl.mul (Dbl.ofInt 1) (Dbl.ofInt 100)) = 100 := by decide
    rw [hfl]
    omega

theorem return_happiness_isolated_witness :
    (∃ h, return_happiness 5 ('e' :: List.replicate 24 '.') 0 0 = some h ∧ h.toRat = 1 ∧
      ∀ s : Int, 1 ≤ s → s ≤ 99 → check_happiness h s = true) ∧
    (validOffsets 5 0 0).length = 3 ∧
    (∃ h, return_happiness 3 ['.', '.', '.', '.', 'n', '.', '.', '.', '.'] 1 1 = some h ∧
      h.toRat = 1 ∧ ∀ s : Int, 1 ≤ s → s ≤ 99 → check_happiness h s = true) :=
  ⟨return_happiness_isolated 5 ('e' :: List.replicate 24 '.') 0 0 (by decide) (by decide),
    by decide,
    return_happiness_isolated 3 ['.', '.', '.', '.', 'n', '.', '.', '.', '.'] 1 1 (by decide)
      (by decide)⟩

/-- C7: `check_happiness happiness strength` is true exactly when the
double `happiness * 100` is at least `strength`; and for a happiness that is the
quotient `same / real` of counters with `0 ≤ same ≤ real ≤ 8`, `1 ≤ real`, that
is the same as `100 * same ≥ strength * real` in exact integer arithmetic. -/
theorem check_happiness_threshold (happiness : Dbl) (same real strength : Int)
    (h0 : 0 ≤ same) (h1 : same ≤ real) (h2 : 1 ≤ real) (h3 : real ≤ 8) :
    (check_happiness happiness strength = true
      ↔ (strength : ℚ) ≤ (Dbl.mul happiness (Dbl.ofInt 100)).toRat) ∧
    ∃ q, Dbl.div (Dbl.ofInt same) (Dbl.ofInt real) = some q ∧
      (check_happiness q strength = true ↔ strength * real ≤ 100 * same) := by
  constructor
  · unfold check_happiness
    have hiff := Dbl.lt_iff (Dbl.mul happiness (Dbl.ofInt 100)) (Dbl.ofInt strength)
    rw [Dbl.toRat_ofInt] at hiff
    by_cases hlt : Dbl.lt (Dbl.mul happiness (Dbl.ofInt 100)) (Dbl.ofInt strength) = true
    · have := hiff.mp hlt
      simp only [hlt, if_true]
      constructor
      · intro hf
        exact absurd hf (by simp)
      · intro hle
        exact absurd (lt_of_le_of_lt hle this) (lt_irrefl _)
    · have hle := not_lt.mp (fun hh => hlt (hiff.mpr hh))
      simp [hlt, hle]
  · obtain ⟨q, hq, _, _, _, hfl⟩ := div_counters same real h0 h1 h2 h3
    refine ⟨q, hq, ?_⟩
    rw [check_happiness_iff_floor, hfl, Int.le_ediv_iff_mul_le (by omega)]

theorem check_happiness_threshold_witness :
    (check_happiness ⟨1, -1⟩ 50 = true
      ↔ ((50 : Int) : ℚ) ≤ (Dbl.mul ⟨1, -1⟩ (Dbl.ofInt 100)).toRat) ∧
    ∃ q, Dbl.div (Dbl.ofInt 3) (Dbl.ofInt 5) = some q ∧
      (check_happiness q 50 = true ↔ (50 : Int) * 5 ≤ 100 * 3) :=
  check_happiness_threshold ⟨1, -1⟩ 3 5 50 (by decide) (by decide) (by decide) (by decide)

/-! ## Generic facts about loops and buffers -/

/-- A loop nest over `i < n`, `j < d` whose body depends on `(i, j)` through
the offset `i * d + j` is a single loop over the offsets below `n * d`. -/
theorem foldl_nested {σ : Type} (d : Nat) (body : σ → Nat → Nat → σ) (f : σ → Nat → σ)
    (hbody : ∀ s i j, j < d → body s i j = f s (i * d + j)) : ∀ (n : Nat) (s : σ),
    (List.range n).foldl (fun s i => (List.range d).foldl (fun s j => body s i j) s) s
      = (List.range (n * d)).foldl f s
  | 0, s => by simp
  | n + 1, s => by
    rw [List.range_succ, List.foldl_append, foldl_nested d body f hbody n s]
    simp only [List.foldl_cons, List.foldl_nil]
    rw [Nat.succ_mul, List.range_add, List.foldl_append, List.foldl_map]
    apply List.foldl_ext
    intro a j hj
    exact hbody a n j (List.mem_range.mp hj)

theorem getD_set_eq {α : Type} (l : List α) (i x : Nat) (a z : α) :
    (l.set i a).getD x z = if i = x ∧ x < l.length then a else l.getD x z := by
  simp only [List.getD_eq_getElem?_getD, List.getElem?_set]
  by_cases h : i = x
  · subst h
    by_cases h2 : i < l.length
    · simp [h2]
    · have hnone : l[i]? = none := List.getElem?_eq_none (by omega)
      simp [h2, hnone]
  · simp [h]

theorem count_set_add {α : Type} [DecidableEq α] (b a z : α) : ∀ (l : List α) (i : Nat),
    i < l.length →
    (l.set i a).count b + (if l.getD i z = b then 1 else 0)
      = l.count b + (if a = b then 1 else 0)
  | [], i, h => by simp at h
  | c :: l, 0, _ => by
    simp only [List.set_cons_zero, List.count_cons, List.getD_cons_zero, beq_iff_eq]
    omega
  | c :: l, i + 1, h => by
    have ih := count_set_add b a z l i (by simpa using h)
    simp only [List.set_cons_succ, List.count_cons, List.getD_cons_succ]
    omega

theorem set_getD_self {α : Type} (z : α) : ∀ (l : List α) (i : Nat), l.set i (l.getD i z) = l
  | [], i => by simp
  | c :: l, 0 => by simp
  | c :: l, i + 1 => by
    simp only [List.set_cons_succ, List.getD_cons_succ, set_getD_self z l i]

/-! ## Facts about `look_for_vacancy` -/

theorem offset_lt_of_lex (d i j i2 j2 : Nat) (hj : j < d)
    (h : i < i2 ∨ (i = i2 ∧ j < j2)) : i * d + j < i2 * d + j2 := by
  rcases h with h | ⟨h1, h2⟩
  · have h3 : (i + 1) * d ≤ i2 * d := Nat.mul_le_mul_right d h
    rw [Nat.succ_mul] at h3
    omega
  · subst h1
    omega

theorem offset_inj (d i j i2 j2 : Nat) (hj : j < d) (hj2 : j2 < d)
    (h : i * d + j = i2 * d + j2) : i = i2 ∧ j = j2 := by
  rcases Nat.lt_trichotomy i i2 with h1 | h1 | h1
  · have := offset_lt_of_lex d i j i2 j2 hj (Or.inl h1)
    omega
  · subst h1
    exact ⟨rfl, by omega⟩
  · have := offset_lt_of_lex d i2 j2 i j hj2 (Or.inl h1)
    omega

theorem offset_lt_square (d i j : Nat) (hi : i < d) (hj : j < d) : i * d + j < d * d := by
  have h3 : (i + 1) * d ≤ d * d := Nat.mul_le_mul_right d hi
  rw [Nat.succ_mul] at h3
  omega

/-- Every offset below `d * d` is the offset of a cell `(i, j)` with `i, j < d`. -/
theorem offset_split (d k : Nat) (hk : k < d * d) :
    k / d < d ∧ k % d < d ∧ (k / d) * d + k % d = k := by
  have hd : 0 < d := by
    rcases Nat.eq_zero_or_pos d with h | h
    · subst h; simp at hk
    · exact h
  refine ⟨Nat.div_lt_of_lt_mul hk, Nat.mod_lt _ hd, ?_⟩
  rw [Nat.mul_comm]
  exact Nat.div_add_mod k d

/-- A scan with early exit that finds nothing. -/
theorem scan_none {β : Type} (p : Nat → Prop) [DecidablePred p] (F : Nat → β) :
    ∀ n : Nat, (∀ k, k < n → ¬ p k) →
    (List.range n).foldl (fun (ret : Option β) k =>
      orReturn ret (if p k then some (F k) else none)) none = none
  | 0, _ => by simp
  | n + 1, h => by
    rw [List.range_succ, List.foldl_append, scan_none p F n (fun k hk => h k (by omega))]
    simp [orReturn, h n (by omega)]

/-- A scan with early exit returns at the first hit. -/
theorem scan_some {β : Type} (p : Nat → Prop) [DecidablePred p] (F : Nat → β) (k : Nat)
    (hk : p k) (hfirst : ∀ k2, k2 < k → ¬ p k2) :
    ∀ n : Nat, k < n →
    (List.range n).foldl (fun (ret : Option β) k =>
      orReturn ret (if p k then some (F k) else none)) none = some (F k)
  | 0, h => by omega
  | n + 1, h => by
    rw [List.range_succ, List.foldl_append]
    by_cases hkn : k = n
    · subst hkn
      rw [scan_none p F k hfirst]
      simp [orReturn, hk]
    · rw [scan_some p F k hk hfirst n (by omega)]
      simp [orReturn]

/-- The scan of `look_for_vacancy` as a single loop over offsets. -/
theorem look_for_vacancy_flat (dimension : Nat) (grid : List Char) (row col : Nat)
    (curr : Char) :
    look_for_vacancy dimension grid row col curr =
      ((List.range (dimension * dimension)).foldl (fun (ret : Option (List Char)) k =>
        orReturn ret
          (if grid.getD k (Char.ofNat 0) = '.' then
            some ((grid.set k (toupper curr)).set (row * dimension + col) ' ')
          else none)) none).getD grid :=
  congrArg (fun r => Option.getD r grid)
    (foldl_nested dimension
      (fun (ret : Option (List Char)) i j =>
        orReturn ret
          (if cellAt dimension grid i j = '.' then
            some (setAt dimension (setAt dimension grid i j (toupper curr)) row col ' ')
          else none))
      (fun (ret : Option (List Char)) k =>
        orReturn ret
          (if grid.getD k (Char.ofNat 0) = '.' then
            some ((grid.set k (toupper curr)).set (row * dimension + col) ' ')
          else none))
      (fun _ _ _ _ => rfl) dimension none)

theorem look_for_vacancy_none (dimension : Nat) (grid : List Char) (row col : Nat)
    (curr : Char)
    (h : ∀ k, k < dimension * dimension → grid.getD k (Char.ofNat 0) ≠ '.') :
    look_for_vacancy dimension grid row col curr = grid :=
  (look_for_vacancy_flat dimension grid row col curr).trans
    (congrArg (fun r => Option.getD r grid)
      (scan_none (fun k => grid.getD k (Char.ofNat 0) = '.')
        (fun k => (grid.set k (toupper curr)).set (row * dimension + col) ' ')
        (dimension * dimension) h))

theorem look_for_vacancy_some (dimension : Nat) (grid : List Char) (row col : Nat)
    (curr : Char) (k : Nat) (hk : k < dimension * dimension)
    (hdot : grid.getD k (Char.ofNat 0) = '.')
    (hfirst : ∀ k2, k2 < k → grid.getD k2 (Char.ofNat 0) ≠ '.') :
    look_for_vacancy dimension grid row col curr
      = (grid.set k (toupper curr)).set (row * dimension + col) ' ' :=
  (look_for_vacancy_flat dimension grid row col curr).trans
    (congrArg (fun r => Option.getD r grid)
      (scan_some (fun k => grid.getD k (Char.ofNat 0) = '.')
        (fun k => (grid.set k (toupper curr)).set (row * dimension + col) ' ') k hdot hfirst
        (dimension * dimension) hk))

/-- Either no cell is vacant or there is a first vacant offset. -/
theorem first_vacant_cases (grid : List Char) (n : Nat) :
    (∀ k, k < n → grid.getD k (Char.ofNat 0) ≠ '.') ∨
    ∃ k, k < n ∧ grid.getD k (Char.ofNat 0) = '.' ∧
      ∀ k2, k2 < k → grid.getD k2 (Char.ofNat 0) ≠ '.' := by
  by_cases h : ∃ k, k < n ∧ grid.getD k (Char.ofNat 0) = '.'
  · right
    refine ⟨Nat.find h, (Nat.find_spec h).1, (Nat.find_spec h).2, fun k2 hk2 hdot => ?_⟩
    exact Nat.find_min h hk2 ⟨hk2.trans (Nat.find_spec h).1, hdot⟩
  · left
    intro k hk hdot
    exact h ⟨k, hk, hdot⟩

theorem lex_of_offset_lt (d i j i2 j2 : Nat) (hj : j < d)
    (h : i2 * d + j2 < i * d + j) : i2 < i ∨ (i2 = i ∧ j2 < j) := by
  rcases Nat.lt_trichotomy i2 i with h1 | h1 | h1
  · exact Or.inl h1
  · subst h1
    exact Or.inr ⟨rfl, by omega⟩
  · have := offset_lt_of_lex d i j i2 j2 hj (Or.inl h1)
    omega

/-- C8: with a vacant cell on the grid, `look_for_vacancy` stores
`toupper curr` into the first vacant cell in row-major order and then `' '`
into `(row, col)`, and every other cell keeps its value; with no vacant cell
the grid is left as it is. -/
theorem look_for_vacancy_first_vacancy (dimension : Nat) (grid : List Char) (row col : Nat)
    (curr : Char) (hlen : grid.length = dimension * dimension) (hrow : row < dimension)
    (hcol : col < dimension) :
    (∀ i j, i < dimension → j < dimension → cellAt dimension grid i j = '.' →
      (∀ i2 j2, i2 < dimension → j2 < dimension → (i2 < i ∨ (i2 = i ∧ j2 < j)) →
        cellAt dimension grid i2 j2 ≠ '.') →
      look_for_vacancy dimension grid row col curr
          = setAt dimension (setAt dimension grid i j (toupper curr)) row col ' ' ∧
      ∀ a b, a < dimension → b < dimension →
        cellAt dimension (look_for_vacancy dimension grid row col curr) a b =
          if a = row ∧ b = col then ' '
          else if a = i ∧ b = j then toupper curr
          else cellAt dimension grid a b) ∧
    ((∀ i j, i < dimension → j < dimension → cellAt dimension grid i j ≠ '.') →
      look_for_vacancy dimension grid row col curr = grid) := by
  constructor
  · intro i j hi hj hdot hfirst
    have hk := offset_lt_square dimension i j hi hj
    have heq : look_for_vacancy dimension grid row col curr
        = setAt dimension (setAt dimension grid i j (toupper curr)) row col ' ' := by
      refine look_for_vacancy_some dimension grid row col curr (i * dimension + j) hk hdot ?_
      intro k2 hk2
      obtain ⟨h1, h2, h3⟩ := offset_split dimension k2 (hk2.trans hk)
      have hlex := lex_of_offset_lt dimension i j (k2 / dimension) (k2 % dimension) hj
        (by rw [h3]; exact hk2)
      have := hfirst (k2 / dimension) (k2 % dimension) h1 h2 hlex
      unfold cellAt at this
      rw [h3] at this
      exact this
    refine ⟨heq, ?_⟩
    intro a b ha hb
    have hx := offset_lt_square dimension a b ha hb
    rw [heq]
    simp only [cellAt, setAt, getD_set_eq, List.length_set, hlen, hx, and_true]
    by_cases h1 : a = row ∧ b = col
    · obtain ⟨rfl, rfl⟩ := h1
      simp
    · have h1b : ¬ (row * dimension + col = a * dimension + b) := by
        intro h
        obtain ⟨h2, h3⟩ := offset_inj dimension row col a b hcol hb h
        exact h1 ⟨h2.symm, h3.symm⟩
      rw [if_neg h1b, if_neg h1]
      by_cases h4 : a = i ∧ b = j
      · obtain ⟨rfl, rfl⟩ := h4
        simp
      · have h4b : ¬ (i * dimension + j = a * dimension + b) := by
          intro h
          obtain ⟨h2, h3⟩ := offset_inj dimension i j a b hj hb h
          exact h4 ⟨h2.symm, h3.symm⟩
        rw [if_neg h4b, if_neg h4]
  · intro hnone
    refine look_for_vacancy_none dimension grid row col curr ?_
    intro k hk
    obtain ⟨h1, h2, h3⟩ := offset_split dimension k hk
    have := hnone (k / dimension) (k % dimension) h1 h2
    unfold cellAt at this
    rw [h3] at this
    exact this

theorem look_for_vacancy_first_vacancy_witness :
    (look_for_vacancy 3 ['e', 'n', '.', 'n', 'e', 'n', '.', 'e', 'e'] 1 0 'n'
        = setAt 3 (setAt 3 ['e', 'n', '.', 'n', 'e', 'n', '.', 'e', 'e'] 0 2 (toupper 'n'))
            1 0 ' ' ∧
      ∀ a b, a < 3 → b < 3 →
        cellAt 3 (look_for_vacancy 3 ['e', 'n', '.', 'n', 'e', 'n', '.', 'e', 'e'] 1 0 'n') a b =
          if a = 1 ∧ b = 0 then ' '
          else if a = 0 ∧ b = 2 then toupper 'n'
          else cellAt 3 ['e', 'n', '.', 'n', 'e', 'n', '.', 'e', 'e'] a b) ∧
    look_for_vacancy 2 ['e', 'n', 'n', 'e'] 1 0 'n' = ['e', 'n', 'n', 'e'] :=
  ⟨(look_for_vacancy_first_vacancy 3 ['e', 'n', '.', 'n', 'e', 'n', '.', 'e', 'e'] 1 0 'n'
      (by decide) (by decide) (by decide)).1 0 2 (by decide) (by decide) (by decide)
      (by
        intro i2 j2 h1 h2 h3
        interval_cases i2 <;> interval_cases j2 <;> first | omega | decide),
    (look_for_vacancy_first_vacancy 2 ['e', 'n', 'n', 'e'] 1 0 'n'
      (by decide) (by decide) (by decide)).2
      (by
        intro i j h1 h2
        interval_cases i <;> interval_cases j <;> decide)⟩

/-! ## Facts about `move_rules` -/

/-- An invariant indexed by the loop counter holds after a loop over `range n`. -/
theorem foldl_range_inv {σ : Type} (f : σ → Nat → σ) (P : Nat → σ → Prop) :
    ∀ (n : Nat) (s : σ), P 0 s → (∀ k s, k < n → P k s → P (k + 1) (f s k)) →
    P n ((List.range n).foldl f s)
  | 0, s, h0, _ => by simpa using h0
  | n + 1, s, h0, hstep => by
    rw [List.range_succ, List.foldl_append]
    simp only [List.foldl_cons, List.foldl_nil]
    exact hstep n _ (by omega)
      (foldl_range_inv f P n s h0 (fun k s hk hP => hstep k s (by omega) hP))

theorem look_for_vacancy_src (dimension : Nat) (grid : List Char) (i j : Nat) (curr : Char) :
    look_for_vacancy dimension grid i j curr
      = look_for_vacancy dimension grid 0 (i * dimension + j) curr := by
  simp [look_for_vacancy, setAt]

/-- The relocation scan of `move_rules` as a single loop over offsets. -/
theorem relocate_flat (dimension : Nat) (grid : List Char) (happy : List Bool) :
    relocate dimension grid happy =
      (List.range (dimension * dimension)).foldl (fun (g : List Char) k =>
        if (g.getD k (Char.ofNat 0) = 'e' ∨ g.getD k (Char.ofNat 0) = 'n')
            ∧ happy.getD k false = false then
          look_for_vacancy dimension g 0 k (g.getD k (Char.ofNat 0))
        else g) grid :=
  foldl_nested dimension
    (fun (g : List Char) i j =>
      if (cellAt dimension g i j = 'e' ∨ cellAt dimension g i j = 'n')
          ∧ happyAt dimension happy i j = false then
        look_for_vacancy dimension g i j (cellAt dimension g i j)
      else g)
    (fun (g : List Char) k =>
      if (g.getD k (Char.ofNat 0) = 'e' ∨ g.getD k (Char.ofNat 0) = 'n')
          ∧ happy.getD k false = false then
        look_for_vacancy dimension g 0 k (g.getD k (Char.ofNat 0))
      else g)
    (fun g i j _ => by
      simp only [cellAt, happyAt]
      rw [look_for_vacancy_src]) dimension grid

/-- What one call of `look_for_vacancy` from the relocation scan does. -/
theorem look_for_vacancy_cases (dimension : Nat) (grid : List Char) (x : Nat) (curr : Char) :
    ((∀ k, k < dimension * dimension → grid.getD k (Char.ofNat 0) ≠ '.') ∧
      look_for_vacancy dimension grid 0 x curr = grid) ∨
    ∃ k, k < dimension * dimension ∧ grid.getD k (Char.ofNat 0) = '.' ∧
      (∀ k2, k2 < k → grid.getD k2 (Char.ofNat 0) ≠ '.') ∧
      look_for_vacancy dimension grid 0 x curr = (grid.set k (toupper curr)).set x ' ' := by
  rcases first_vacant_cases grid (dimension * dimension) with h | ⟨k, hk, hdot, hfirst⟩
  · exact Or.inl ⟨h, look_for_vacancy_none dimension grid 0 x curr h⟩
  · refine Or.inr ⟨k, hk, hdot, hfirst, ?_⟩
    have := look_for_vacancy_some dimension grid 0 x curr k hk hdot hfirst
    simpa using this

/-- The effect of one relocation on the number of cells holding `b`. -/
theorem count_relocation (grid : List Char) (k x : Nat) (c u b : Char)
    (hk : k < grid.length) (hx : x < grid.length)
    (hdot : grid.getD k (Char.ofNat 0) = '.') (hc : grid.getD x (Char.ofNat 0) = c)
    (hne : c ≠ '.') :
    ((grid.set k u).set x ' ').count b + (if c = b then 1 else 0) + (if '.' = b then 1 else 0)
      = grid.count b + (if u = b then 1 else 0) + (if ' ' = b then 1 else 0) := by
  have e1 := count_set_add b u (Char.ofNat 0) grid k hk
  have e2 := count_set_add b ' ' (Char.ofNat 0) (grid.set k u) x (by simpa using hx)
  have hkx : ¬ (k = x ∧ x < grid.length) := by
    rintro ⟨rfl, _⟩
    rw [hdot] at hc
    exact hne hc.symm
  rw [getD_set_eq, if_neg hkx, hc] at e2
  rw [hdot] at e1
  omega

theorem foldl_fst {σ τ ι : Type} (F : σ × τ → ι → σ × τ) (f : σ → ι → σ)
    (h : ∀ st k, (F st k).1 = f st.1 k) : ∀ (l : List ι) (st : σ × τ),
    (l.foldl F st).1 = l.foldl f st.1
  | [], st => rfl
  | k :: l, st => by
    rw [List.foldl_cons, List.foldl_cons, foldl_fst F f h l, h]

/-- The logged relocation scan as a single loop over offsets. -/
theorem relocate_log_flat (dimension : Nat) (grid : List Char) (happy : List Bool) :
    relocate_log dimension grid happy =
      (List.range (dimension * dimension)).foldl (fun (st : List Char × List Nat) k =>
        if (st.1.getD k (Char.ofNat 0) = 'e' ∨ st.1.getD k (Char.ofNat 0) = 'n')
            ∧ happy.getD k false = false then
          (look_for_vacancy dimension st.1 0 k (st.1.getD k (Char.ofNat 0)),
            if look_for_vacancy dimension st.1 0 k (st.1.getD k (Char.ofNat 0)) = st.1
            then st.2 else st.2 ++ [k])
        else st) (grid, []) :=
  foldl_nested dimension
    (fun (st : List Char × List Nat) i j =>
      if (cellAt dimension st.1 i j = 'e' ∨ cellAt dimension st.1 i j = 'n')
          ∧ happyAt dimension happy i j = false then
        (look_for_vacancy dimension st.1 i j (cellAt dimension st.1 i j),
          if look_for_vacancy dimension st.1 i j (cellAt dimension st.1 i j) = st.1 then st.2
          else st.2 ++ [i * dimension + j])
      else st)
    (fun (st : List Char × List Nat) k =>
      if (st.1.getD k (Char.ofNat 0) = 'e' ∨ st.1.getD k (Char.ofNat 0) = 'n')
          ∧ happy.getD k false = false then
        (look_for_vacancy dimension st.1 0 k (st.1.getD k (Char.ofNat 0)),
          if look_for_vacancy dimension st.1 0 k (st.1.getD k (Char.ofNat 0)) = st.1
          then st.2 else st.2 ++ [k])
      else st)
    (fun st i j _ => by
      simp only [cellAt, happyAt, look_for_vacancy_src dimension st.1 i j]) dimension (grid, [])

/-- The ghost log does not change the grid the scan computes. -/
theorem relocate_log_fst (dimension : Nat) (grid : List Char) (happy : List Bool) :
    (relocate_log dimension grid happy).1 = relocate dimension grid happy := by
  rw [relocate_log_flat, relocate_flat]
  apply foldl_fst
  intro st k
  split <;> rfl

/-- Induction over the relocation scan: a property of the loop counter, the
grid and the log that holds at the start and is kept by an iteration that moves
nobody and by an iteration that moves the occupant of offset `k` to the first
vacant offset `t`, holds at the end. -/
theorem relocate_log_induct (dimension : Nat) (grid : List Char) (happy : List Bool)
    (hlen : grid.length = dimension * dimension)
    (P : Nat → List Char → List Nat → Prop) (h0 : P 0 grid [])
    (hskip : ∀ k g log, k < dimension * dimension → g.length = dimension * dimension →
      P k g log →
      (¬ ((g.getD k (Char.ofNat 0) = 'e' ∨ g.getD k (Char.ofNat 0) = 'n')
          ∧ happy.getD k false = false)
        ∨ ∀ t, t < dimension * dimension → g.getD t (Char.ofNat 0) ≠ '.') →
      P (k + 1) g log)
    (hmove : ∀ k g log t, k < dimension * dimension → g.length = dimension * dimension →
      P k g log →
      (g.getD k (Char.ofNat 0) = 'e' ∨ g.getD k (Char.ofNat 0) = 'n') →
      happy.getD k false = false →
      t < dimension * dimension → g.getD t (Char.ofNat 0) = '.' →
      (∀ t2, t2 < t → g.getD t2 (Char.ofNat 0) ≠ '.') →
      P (k + 1) ((g.set t (toupper (g.getD k (Char.ofNat 0)))).set k ' ') (log ++ [k])) :
    P (dimension * dimension) (relocate_log dimension grid happy).1
      (relocate_log dimension grid happy).2 ∧
    (relocate_log dimension grid happy).1.length = dimension * dimension := by
  rw [relocate_log_flat]
  refine foldl_range_inv _
    (fun k (st : List Char × List Nat) => P k st.1 st.2 ∧ st.1.length = dimension * dimension)
    (dimension * dimension) (grid, []) ⟨h0, hlen⟩ ?_
  rintro k ⟨g, log⟩ hk ⟨hP, hl⟩
  simp only
  by_cases helig : (g.getD k (Char.ofNat 0) = 'e' ∨ g.getD k (Char.ofNat 0) = 'n')
      ∧ happy.getD k false = false
  · rw [if_pos helig]
    rcases look_for_vacancy_cases dimension g k (g.getD k (Char.ofNat 0)) with
      ⟨hnone, heq⟩ | ⟨t, ht, hdot, hfirst, heq⟩
    · rw [heq, if_pos rfl]
      exact ⟨hskip k g log hk hl hP (Or.inr hnone), hl⟩
    · have hne : (g.set t (toupper (g.getD k (Char.ofNat 0)))).set k ' ' ≠ g := by
        intro h
        have h1 := congrArg (fun l => l.getD k (Char.ofNat 0)) h
        simp only [getD_set_eq, List.length_set, hl, hk, and_self, if_true] at h1
        rcases helig.1 with h2 | h2 <;> rw [h2] at h1 <;> exact absurd h1 (by decide)
      rw [heq, if_neg hne]
      exact ⟨hmove k g log t hk hl hP helig.1 helig.2 ht hdot hfirst, by simpa using hl⟩
  · rw [if_neg helig]
    exact ⟨hskip k g log hk hl hP (Or.inl helig), hl⟩

theorem count_take_succ (b z : Char) (l : List Char) (k : Nat) (hk : k < l.length) :
    (l.take (k + 1)).count b = (l.take k).count b + (if l.getD k z = b then 1 else 0) := by
  rw [List.take_succ, List.count_append, List.getD_eq_getElem l z hk,
    List.getElem?_eq_getElem hk]
  simp [List.count_cons]

/-- The second loop nest of `move_rules` resolves every cell and counts the
cells that held the vacated marker. -/
theorem next_gen_eq (dimension : Nat) (grid : List Char)
    (hlen : grid.length = dimension * dimension) :
    next_gen dimension grid = (grid.map resolve, (grid.count ' ' : Int)) := by
  have hflat : next_gen dimension grid =
      (List.range (dimension * dimension)).foldl (fun (st : List Char × Int) k =>
        (st.1.set k (resolve (st.1.getD k (Char.ofNat 0))),
          st.2 + (if st.1.getD k (Char.ofNat 0) = ' ' then 1 else 0))) (grid, 0) :=
    foldl_nested dimension
      (fun (st : List Char × Int) row col =>
        if cellAt dimension st.1 row col = ' ' then
          (setAt dimension st.1 row col '.', st.2 + 1)
        else if cellAt dimension st.1 row col = 'E' then
          (setAt dimension st.1 row col (tolower 'E'), st.2)
        else if cellAt dimension st.1 row col = 'N' then
          (setAt dimension st.1 row col (tolower 'N'), st.2)
        else st)
      (fun (st : List Char × Int) k =>
        (st.1.set k (resolve (st.1.getD k (Char.ofNat 0))),
          st.2 + (if st.1.getD k (Char.ofNat 0) = ' ' then 1 else 0)))
      (fun st i j _ => by
        obtain ⟨g, n⟩ := st
        simp only [cellAt, setAt, resolve]
        by_cases h1 : g.getD (i * dimension + j) (Char.ofNat 0) = ' '
        · rw [if_pos h1, if_pos h1, if_pos h1]
        · by_cases h2 : g.getD (i * dimension + j) (Char.ofNat 0) = 'E'
          · rw [if_neg h1, if_pos h2, if_neg h1, if_pos h2, if_neg h1, add_zero]
          · by_cases h3 : g.getD (i * dimension + j) (Char.ofNat 0) = 'N'
            · rw [if_neg h1, if_neg h2, if_pos h3, if_neg h1, if_neg h2, if_pos h3, if_neg h1,
                add_zero]
            · rw [if_neg h1, if_neg h2, if_neg h3, if_neg h1, if_neg h2, if_neg h3, if_neg h1,
                add_zero, set_getD_self])
      dimension (grid, 0)
  rw [hflat]
  have hinv := foldl_range_inv
    (fun (st : List Char × Int) k =>
      (st.1.set k (resolve (st.1.getD k (Char.ofNat 0))),
        st.2 + (if st.1.getD k (Char.ofNat 0) = ' ' then 1 else 0)))
    (fun k (st : List Char × Int) => st.1.length = grid.length ∧
      (∀ x, x < grid.length → st.1.getD x (Char.ofNat 0)
        = if x < k then resolve (grid.getD x (Char.ofNat 0)) else grid.getD x (Char.ofNat 0)) ∧
      st.2 = ((grid.take k).count ' ' : Nat))
    (dimension * dimension) (grid, 0) ⟨rfl, fun x _ => by simp, by simp⟩
    (by
      rintro k ⟨g, n⟩ hk ⟨h1, h2, h3⟩
      simp only at h1 h2 h3 ⊢
      have hkl : k < grid.length := by omega
      have hgk : g.getD k (Char.ofNat 0) = grid.getD k (Char.ofNat 0) := by
        rw [h2 k hkl, if_neg (by omega)]
      refine ⟨by simpa using h1, ?_, ?_⟩
      · intro x hx
        rw [getD_set_eq, h1, hgk]
        by_cases hxk : k = x
        · subst hxk
          simp [hx]
        · rw [if_neg (fun h => hxk h.1), h2 x hx]
          by_cases hlt : x < k
          · simp [hlt, show x < k + 1 by omega]
          · simp [hlt, show ¬ (x < k + 1) by omega]
      · rw [count_take_succ ' ' (Char.ofNat 0) grid k hkl, h3, hgk]
        push_cast
        split <;> simp)
  obtain ⟨h1, h2, h3⟩ := hinv
  generalize (List.range (dimension * dimension)).foldl _ (grid, (0 : Int)) = st at h1 h2 h3
  obtain ⟨g, n⟩ := st
  simp only at h1 h2 h3
  have hg : g = grid.map resolve := by
    apply List.ext_getElem
    · simpa using h1
    · intro x hx1 hx2
      have hx : x < grid.length := by omega
      have := h2 x hx
      rw [if_pos (by omega), List.getD_eq_getElem g _ hx1, List.getD_eq_getElem grid _ hx] at this
      simpa using this
  have hn : n = ((grid.count ' ' : Nat) : Int) := by
    rw [h3, ← hlen, List.take_length]
  rw [hg, hn]

theorem count_map_resolve (b b1 b2 : Char) (hb : b1 ≠ b2)
    (h : ∀ c, resolve c = b ↔ (c = b1 ∨ c = b2)) : ∀ l : List Char,
    (l.map resolve).count b = l.count b1 + l.count b2
  | [] => by simp
  | c :: l => by
    rw [List.map_cons, List.count_cons, List.count_cons, List.count_cons,
      count_map_resolve b b1 b2 hb h l]
    simp only [beq_iff_eq]
    by_cases h1 : c = b1
    · have h2 : ¬ (c = b2) := fun h2 => hb (h1.symm.trans h2)
      rw [if_pos ((h c).mpr (Or.inl h1)), if_pos h1, if_neg h2]
      omega
    · by_cases h2 : c = b2
      · rw [if_pos ((h c).mpr (Or.inr h2)), if_neg h1, if_pos h2]
        omega
      · rw [if_neg (fun h3 => ((h c).mp h3).elim h1 h2), if_neg h1, if_neg h2]
        omega

theorem resolve_eq_dot (c : Char) : resolve c = '.' ↔ (c = '.' ∨ c = ' ') := by
  unfold resolve
  by_cases h1 : c = ' '
  · subst h1; decide
  · by_cases h2 : c = 'E'
    · subst h2; decide
    · by_cases h3 : c = 'N'
      · subst h3; decide
      · simp [h1, h2, h3]

theorem resolve_eq_e (c : Char) : resolve c = 'e' ↔ (c = 'e' ∨ c = 'E') := by
  unfold resolve
  by_cases h1 : c = ' '
  · subst h1; decide
  · by_cases h2 : c = 'E'
    · subst h2; decide
    · by_cases h3 : c = 'N'
      · subst h3; decide
      · simp [h1, h2, h3]

theorem resolve_eq_n (c : Char) : resolve c = 'n' ↔ (c = 'n' ∨ c = 'N') := by
  unfold resolve
  by_cases h1 : c = ' '
  · subst h1; decide
  · by_cases h2 : c = 'E'
    · subst h2; decide
    · by_cases h3 : c = 'N'
      · subst h3; decide
      · simp [h1, h2, h3]

/-- The state after the relocation scan: every cell either keeps its value or
holds a marker, the numbers of cells of each kind are tied to the initial ones,
and the log lists distinct offsets of cells that held an occupant at the start,
one for each vacated marker written. -/
theorem relocate_log_invariant (dimension : Nat) (grid : List Char) (happy : List Bool)
    (hlen : grid.length = dimension * dimension) :
    ((∀ x, (relocate_log dimension grid happy).1.getD x (Char.ofNat 0)
          = grid.getD x (Char.ofNat 0)
        ∨ (relocate_log dimension grid happy).1.getD x (Char.ofNat 0) = ' '
        ∨ (relocate_log dimension grid happy).1.getD x (Char.ofNat 0) = 'E'
        ∨ (relocate_log dimension grid happy).1.getD x (Char.ofNat 0) = 'N') ∧
      (relocate_log dimension grid happy).1.count '.'
          + (relocate_log dimension grid happy).1.count 'E'
          + (relocate_log dimension grid happy).1.count 'N'
        = grid.count '.' + grid.count 'E' + grid.count 'N' ∧
      (relocate_log dimension grid happy).1.count 'e'
          + (relocate_log dimension grid happy).1.count 'E'
        = grid.count 'e' + grid.count 'E' ∧
      (relocate_log dimension grid happy).1.count 'n'
          + (relocate_log dimension grid happy).1.count 'N'
        = grid.count 'n' + grid.count 'N' ∧
      (relocate_log dimension grid happy).1.count ' ' + (grid.count 'E' + grid.count 'N')
        = grid.count ' ' + ((relocate_log dimension grid happy).1.count 'E'
          + (relocate_log dimension grid happy).1.count 'N') ∧
      (∀ s ∈ (relocate_log dimension grid happy).2, s < dimension * dimension ∧
        (grid.getD s (Char.ofNat 0) = 'e' ∨ grid.getD s (Char.ofNat 0) = 'n')) ∧
      (relocate_log dimension grid happy).2.Nodup ∧
      (relocate_log dimension grid happy).1.count ' '
        = grid.count ' ' + (relocate_log dimension grid happy).2.length) ∧
    (relocate_log dimension grid happy).1.length = dimension * dimension := by
  exact relocate_log_induct dimension grid happy hlen
    (fun n g log =>
      (∀ x, g.getD x (Char.ofNat 0) = grid.getD x (Char.ofNat 0)
        ∨ g.getD x (Char.ofNat 0) = ' ' ∨ g.getD x (Char.ofNat 0) = 'E'
        ∨ g.getD x (Char.ofNat 0) = 'N') ∧
      g.count '.' + g.count 'E' + g.count 'N' = grid.count '.' + grid.count 'E' + grid.count 'N' ∧
      g.count 'e' + g.count 'E' = grid.count 'e' + grid.count 'E' ∧
      g.count 'n' + g.count 'N' = grid.count 'n' + grid.count 'N' ∧
      g.count ' ' + (grid.count 'E' + grid.count 'N')
        = grid.count ' ' + (g.count 'E' + g.count 'N') ∧
      (∀ s ∈ log, s < n ∧
        (grid.getD s (Char.ofNat 0) = 'e' ∨ grid.getD s (Char.ofNat 0) = 'n')) ∧
      log.Nodup ∧
      g.count ' ' = grid.count ' ' + log.length)
    ⟨fun _ => Or.inl rfl, rfl, rfl, rfl, by omega, by simp, List.nodup_nil, by simp⟩
    (fun k _ _ _ _ hP _ =>
      ⟨hP.1, hP.2.1, hP.2.2.1, hP.2.2.2.1, hP.2.2.2.2.1,
        fun s hs => ⟨(hP.2.2.2.2.2.1 s hs).1.trans (Nat.lt_succ_self k),
          (hP.2.2.2.2.2.1 s hs).2⟩,
        hP.2.2.2.2.2.2.1, hP.2.2.2.2.2.2.2⟩)
    (by
      intro k g log t hk hl ⟨hcell, hA, hB, hC, hD, hsrc, hnd, hsp⟩ hocc _ ht hdot _
      have hkl : k < g.length := by omega
      have htl : t < g.length := by omega
      have hkorig : grid.getD k (Char.ofNat 0) = 'e' ∨ grid.getD k (Char.ofNat 0) = 'n' := by
        rcases hcell k with h1 | h1 | h1 | h1
        · rw [← h1]; exact hocc
        · rcases hocc with h2 | h2 <;> rw [h2] at h1 <;> exact absurd h1 (by decide)
        · rcases hocc with h2 | h2 <;> rw [h2] at h1 <;> exact absurd h1 (by decide)
        · rcases hocc with h2 | h2 <;> rw [h2] at h1 <;> exact absurd h1 (by decide)
      have hlog : ∀ s ∈ log ++ [k], s < k + 1 ∧
          (grid.getD s (Char.ofNat 0) = 'e' ∨ grid.getD s (Char.ofNat 0) = 'n') := by
        intro s hs
        rcases List.mem_append.mp hs with h1 | h1
        · exact ⟨(hsrc s h1).1.trans (Nat.lt_succ_self k), (hsrc s h1).2⟩
        · rw [List.mem_singleton.mp h1]
          exact ⟨Nat.lt_succ_self k, hkorig⟩
      have hnd2 : (log ++ [k]).Nodup := by
        rw [List.nodup_append]
        refine ⟨hnd, List.nodup_singleton k, ?_⟩
        intro a ha hb
        rw [List.mem_singleton.mp hb] at ha
        exact absurd (hsrc k ha).1 (lt_irrefl k)
      have hcell2 : ∀ x, ((g.set t (toupper (g.getD k (Char.ofNat 0)))).set k ' ').getD x
            (Char.ofNat 0) = grid.getD x (Char.ofNat 0)
          ∨ ((g.set t (toupper (g.getD k (Char.ofNat 0)))).set k ' ').getD x (Char.ofNat 0) = ' '
          ∨ ((g.set t (toupper (g.getD k (Char.ofNat 0)))).set k ' ').getD x (Char.ofNat 0) = 'E'
          ∨ ((g.set t (toupper (g.getD k (Char.ofNat 0)))).set k ' ').getD x (Char.ofNat 0)
            = 'N' := by
        intro x
        rw [getD_set_eq, getD_set_eq]
        by_cases h1 : k = x ∧ x < (g.set t (toupper (g.getD k (Char.ofNat 0)))).length
        · rw [if_pos h1]
          exact Or.inr (Or.inl rfl)
        · rw [if_neg h1]
          by_cases h2 : t = x ∧ x < g.length
          · rw [if_pos h2]
            rcases hocc with h3 | h3 <;> rw [h3]
            · exact Or.inr (Or.inr (Or.inl (by decide)))
            · exact Or.inr (Or.inr (Or.inr (by decide)))
          · rw [if_neg h2]
            exact hcell x
      refine ⟨hcell2, ?_⟩
      rcases hocc with h3 | h3
      · have hu : toupper 'e' = 'E' := by decide
        rw [h3, hu]
        have c1 := count_relocation g t k 'e' 'E' '.' htl hkl hdot h3 (by decide)
        have c2 := count_relocation g t k 'e' 'E' 'e' htl hkl hdot h3 (by decide)
        have c3 := count_relocation g t k 'e' 'E' 'n' htl hkl hdot h3 (by decide)
        have c4 := count_relocation g t k 'e' 'E' 'E' htl hkl hdot h3 (by decide)
        have c5 := count_relocation g t k 'e' 'E' 'N' htl hkl hdot h3 (by decide)
        have c6 := count_relocation g t k 'e' 'E' ' ' htl hkl hdot h3 (by decide)
        simp at c1 c2 c3 c4 c5 c6
        refine ⟨by omega, by omega, by omega, by omega, hlog, hnd2, ?_⟩
        rw [List.length_append, List.length_singleton]
        omega
      · have hu : toupper 'n' = 'N' := by decide
        rw [h3, hu]
        have c1 := count_relocation g t k 'n' 'N' '.' htl hkl hdot h3 (by decide)
        have c2 := count_relocation g t k 'n' 'N' 'e' htl hkl hdot h3 (by decide)
        have c3 := count_relocation g t k 'n' 'N' 'n' htl hkl hdot h3 (by decide)
        have c4 := count_relocation g t k 'n' 'N' 'E' htl hkl hdot h3 (by decide)
        have c5 := count_relocation g t k 'n' 'N' 'N' htl hkl hdot h3 (by decide)
        have c6 := count_relocation g t k 'n' 'N' ' ' htl hkl hdot h3 (by decide)
        simp at c1 c2 c3 c4 c5 c6
        refine ⟨by omega, by omega, by omega, by omega, hlog, hnd2, ?_⟩
        rw [List.length_append, List.length_singleton]
        omega)

theorem getD_mem_of_lt (l : List Char) (x : Nat) (hx : x < l.length) :
    l.getD x (Char.ofNat 0) ∈ l := by
  rw [List.getD_eq_getElem l _ hx]
  exact List.getElem_mem hx

/-- The value of `move_rules` in terms of the relocation scan. -/
theorem move_rules_eq (dimension : Nat) (grid : List Char) (happy : List Bool)
    (hlen : grid.length = dimension * dimension) :
    move_rules dimension grid happy
      = ((relocate dimension grid happy).map resolve,
          ((relocate dimension grid happy).count ' ' : Int)) := by
  have h := (relocate_log_invariant dimension grid happy hlen).2
  rw [relocate_log_fst] at h
  unfold move_rules
  exact next_gen_eq dimension _ h

/-- One cycle keeps the side of the grid and leaves only the three cell values. -/
theorem move_rules_cells (dimension : Nat) (grid : List Char) (happy : List Bool)
    (hlen : grid.length = dimension * dimension)
    (hcells : ∀ c ∈ grid, c = '.' ∨ c = 'e' ∨ c = 'n') :
    (move_rules dimension grid happy).1.length = dimension * dimension ∧
    ∀ c ∈ (move_rules dimension grid happy).1, c = '.' ∨ c = 'e' ∨ c = 'n' := by
  obtain ⟨⟨hcell, _⟩, hl⟩ := relocate_log_invariant dimension grid happy hlen
  rw [relocate_log_fst] at hcell hl
  rw [move_rules_eq dimension grid happy hlen]
  refine ⟨by simpa using hl, ?_⟩
  intro c hc
  obtain ⟨a, ha, rfl⟩ := List.mem_map.mp hc
  obtain ⟨x, hx, rfl⟩ := List.getElem_of_mem ha
  have hx2 : x < grid.length := by omega
  have h1 := hcell x
  rw [List.getD_eq_getElem _ _ hx] at h1
  rcases h1 with h1 | h1 | h1 | h1
  · rw [h1]
    rcases hcells _ (getD_mem_of_lt grid x hx2) with h2 | h2 | h2 <;> rw [h2] <;> decide
  · rw [h1]; decide
  · rw [h1]; decide
  · rw [h1]; decide

/-- One cycle keeps the number of cells of each of the three values. -/
theorem move_rules_counts (dimension : Nat) (grid : List Char) (happy : List Bool)
    (hlen : grid.length = dimension * dimension)
    (hcells : ∀ c ∈ grid, c = '.' ∨ c = 'e' ∨ c = 'n') :
    (move_rules dimension grid happy).1.count '.' = grid.count '.' ∧
    (move_rules dimension grid happy).1.count 'e' = grid.count 'e' ∧
    (move_rules dimension grid happy).1.count 'n' = grid.count 'n' := by
  obtain ⟨⟨_, hA, hB, hC, hD, _⟩, _⟩ := relocate_log_invariant dimension grid happy hlen
  rw [relocate_log_fst] at hA hB hC hD
  have hE : grid.count 'E' = 0 := List.count_eq_zero.mpr fun h => by
    rcases hcells _ h with h2 | h2 | h2 <;> exact absurd h2 (by decide)
  have hN : grid.count 'N' = 0 := List.count_eq_zero.mpr fun h => by
    rcases hcells _ h with h2 | h2 | h2 <;> exact absurd h2 (by decide)
  have hS : grid.count ' ' = 0 := List.count_eq_zero.mpr fun h => by
    rcases hcells _ h with h2 | h2 | h2 <;> exact absurd h2 (by decide)
  rw [move_rules_eq dimension grid happy hlen]
  simp only
  rw [count_map_resolve '.' '.' ' ' (by decide) resolve_eq_dot,
    count_map_resolve 'e' 'e' 'E' (by decide) resolve_eq_e,
    count_map_resolve 'n' 'n' 'N' (by decide) resolve_eq_n]
  omega

/-- C1: one call of `move_rules` on a grid over the three cell values keeps
the number of vacant cells, of `'e'` cells and of `'n'` cells, and so does any
number of calls, whatever the happy matrices are. -/
theorem move_rules_conserves (dimension : Nat) (grid : List Char) (happy : List Bool)
    (hs : List (List Bool)) (hlen : grid.length = dimension * dimension)
    (hcells : ∀ c ∈ grid, c = '.' ∨ c = 'e' ∨ c = 'n') :
    ((move_rules dimension grid happy).1.count '.' = grid.count '.' ∧
      (move_rules dimension grid happy).1.count 'e' = grid.count 'e' ∧
      (move_rules dimension grid happy).1.count 'n' = grid.count 'n') ∧
    ((run_cycles dimension grid hs).count '.' = grid.count '.' ∧
      (run_cycles dimension grid hs).count 'e' = grid.count 'e' ∧
      (run_cycles dimension grid hs).count 'n' = grid.count 'n') := by
  refine ⟨move_rules_counts dimension grid happy hlen hcells, ?_⟩
  unfold run_cycles
  induction hs generalizing grid with
  | nil => exact ⟨rfl, rfl, rfl⟩
  | cons h hs ih =>
    obtain ⟨l1, c1⟩ := move_rules_cells dimension grid h hlen hcells
    obtain ⟨a1, a2, a3⟩ := move_rules_counts dimension grid h hlen hcells
    obtain ⟨b1, b2, b3⟩ := ih (move_rules dimension grid h).1 l1 c1
    rw [List.foldl_cons]
    exact ⟨b1.trans a1, b2.trans a2, b3.trans a3⟩

theorem move_rules_conserves_witness :
    (((move_rules 3 ['e', 'n', '.', 'n', 'e', 'n', '.', 'e', 'e']
          [false, false, true, false, true, false, true, false, true]).1.count '.'
        = ['e', 'n', '.', 'n', 'e', 'n', '.', 'e', 'e'].count '.' ∧
      (move_rules 3 ['e', 'n', '.', 'n', 'e', 'n', '.', 'e', 'e']
          [false, false, true, false, true, false, true, false, true]).1.count 'e'
        = ['e', 'n', '.', 'n', 'e', 'n', '.', 'e', 'e'].count 'e' ∧
      (move_rules 3 ['e', 'n', '.', 'n', 'e', 'n', '.', 'e', 'e']
          [false, false, true, false, true, false, true, false, true]).1.count 'n'
        = ['e', 'n', '.', 'n', 'e', 'n', '.', 'e', 'e'].count 'n') ∧
    ((run_cycles 3 ['e', 'n', '.', 'n', 'e', 'n', '.', 'e', 'e']
          [List.replicate 9 false, List.replicate 9 false]).count '.'
        = ['e', 'n', '.', 'n', 'e', 'n', '.', 'e', 'e'].count '.' ∧
      (run_cycles 3 ['e', 'n', '.', 'n', 'e', 'n', '.', 'e', 'e']
          [List.replicate 9 false, List.replicate 9 false]).count 'e'
        = ['e', 'n', '.', 'n', 'e', 'n', '.', 'e', 'e'].count 'e' ∧
      (run_cycles 3 ['e', 'n', '.', 'n', 'e', 'n', '.', 'e', 'e']
          [List.replicate 9 false, List.replicate 9 false]).count 'n'
        = ['e', 'n', '.', 'n', 'e', 'n', '.', 'e', 'e'].count 'n')) ∧
    (move_rules 3 ['e', 'n', '.', 'n', 'e', 'n', '.', 'e', 'e']
        [false, false, true, false, true, false, true, false, true]).1
      = ['.', '.', 'e', 'n', 'e', 'n', 'n', 'e', 'e'] :=
  ⟨move_rules_conserves 3 ['e', 'n', '.', 'n', 'e', 'n', '.', 'e', 'e']
    [false, false, true, false, true, false, true, false, true]
    [List.replicate 9 false, List.replicate 9 false] (by decide) (by decide), by decide⟩

/-- C9: in one call of `move_rules` every relocation takes its occupant from
a cell that held `'e'` or `'n'` when `move_rules` was called, no cell is the
source of two relocations, and the relocations are as many as the returned
count.  The relocations are those of the ghost log of `relocate_log`, whose
grid is the grid of the relocation scan itself. -/
theorem move_rules_moves_once (dimension : Nat) (grid : List Char) (happy : List Bool)
    (hlen : grid.length = dimension * dimension)
    (hcells : ∀ c ∈ grid, c = '.' ∨ c = 'e' ∨ c = 'n') :
    (relocate_log dimension grid happy).1 = relocate dimension grid happy ∧
    (∀ s ∈ (relocate_log dimension grid happy).2, ∃ i j, i < dimension ∧ j < dimension ∧
      s = i * dimension + j ∧
      (cellAt dimension grid i j = 'e' ∨ cellAt dimension grid i j = 'n')) ∧
    (relocate_log dimension grid happy).2.Nodup ∧
    ((relocate_log dimension grid happy).2.length : Int)
      = (move_rules dimension grid happy).2 := by
  obtain ⟨⟨_, _, _, _, _, hsrc, hnd, hsp⟩, _⟩ :=
    relocate_log_invariant dimension grid happy hlen
  have hS : grid.count ' ' = 0 := List.count_eq_zero.mpr fun h => by
    rcases hcells _ h with h2 | h2 | h2 <;> exact absurd h2 (by decide)
  refine ⟨relocate_log_fst dimension grid happy, ?_, hnd, ?_⟩
  · intro s hs
    obtain ⟨h1, h2⟩ := hsrc s hs
    obtain ⟨a, b, c⟩ := offset_split dimension s h1
    refine ⟨s / dimension, s % dimension, a, b, c.symm, ?_⟩
    unfold cellAt
    rw [c]
    exact h2
  · rw [move_rules_eq dimension grid happy hlen, ← relocate_log_fst, hsp, hS]
    simp

theorem move_rules_moves_once_witness :
    ((relocate_log 3 ['e', 'n', '.', 'n', 'e', 'n', '.', 'e', 'e'] (List.replicate 9 false)).1
      = relocate 3 ['e', 'n', '.', 'n', 'e', 'n', '.', 'e', 'e'] (List.replicate 9 false) ∧
    (∀ s ∈ (relocate_log 3 ['e', 'n', '.', 'n', 'e', 'n', '.', 'e', 'e']
        (List.replicate 9 false)).2, ∃ i j, i < 3 ∧ j < 3 ∧ s = i * 3 + j ∧
      (cellAt 3 ['e', 'n', '.', 'n', 'e', 'n', '.', 'e', 'e'] i j = 'e'
        ∨ cellAt 3 ['e', 'n', '.', 'n', 'e', 'n', '.', 'e', 'e'] i j = 'n')) ∧
    (relocate_log 3 ['e', 'n', '.', 'n', 'e', 'n', '.', 'e', 'e']
      (List.replicate 9 false)).2.Nodup ∧
    ((relocate_log 3 ['e', 'n', '.', 'n', 'e', 'n', '.', 'e', 'e']
        (List.replicate 9 false)).2.length : Int)
      = (move_rules 3 ['e', 'n', '.', 'n', 'e', 'n', '.', 'e', 'e']
        (List.replicate 9 false)).2) ∧
    (relocate_log 3 ['e', 'n', '.', 'n', 'e', 'n', '.', 'e', 'e'] (List.replicate 9 false)).2
      = [0, 1] :=
  ⟨move_rules_moves_once 3 ['e', 'n', '.', 'n', 'e', 'n', '.', 'e', 'e']
    (List.replicate 9 false) (by decide) (by decide), by decide⟩

/-- C10: on a grid with no vacant cell `move_rules` returns `0` and leaves
the grid as it is, whatever the happy matrix. -/
theorem move_rules_no_vacancy (dimension : Nat) (grid : List Char) (happy : List Bool)
    (hlen : grid.length = dimension * dimension)
    (hcells : ∀ c ∈ grid, c = 'e' ∨ c = 'n') :
    move_rules dimension grid happy = (grid, 0) := by
  have hrel : relocate dimension grid happy = grid := by
    rw [← relocate_log_fst]
    refine (relocate_log_induct dimension grid happy hlen (fun _ g _ => g = grid) rfl
      (fun _ _ _ _ _ hP _ => hP) ?_).1
    intro k g log t _ _ hP _ _ ht hdot _
    rw [hP] at hdot
    have hmem := getD_mem_of_lt grid t (by omega)
    rw [hdot] at hmem
    rcases hcells _ hmem with h | h <;> exact absurd h (by decide)
  rw [move_rules_eq dimension grid happy hlen, hrel]
  have hS : grid.count ' ' = 0 := List.count_eq_zero.mpr fun h => by
    rcases hcells _ h with h2 | h2 <;> exact absurd h2 (by decide)
  have hmap : grid.map resolve = grid := by
    have hid : grid.map resolve = grid.map id :=
      List.map_congr_left fun c hc => by
        rcases hcells c hc with h | h <;> rw [h] <;> decide
    rw [hid, List.map_id]
  rw [hS, hmap]
  rfl

theorem move_rules_no_vacancy_witness :
    move_rules 2 ['e', 'n', 'n', 'e'] [false, false, false, false]
      = (['e', 'n', 'n', 'e'], 0) :=
  move_rules_no_vacancy 2 ['e', 'n', 'n', 'e'] [false, false, false, false] (by decide)
    (by decide)

/-! ## Markers, the scenario of the specification, and percentages out of range -/

/-- C11: after `move_rules` on a grid over the three cell values every cell
is again `'.'`, `'e'` or `'n'`; no `' '`, `'E'` or `'N'` remains. -/
theorem move_rules_no_markers (dimension : Nat) (grid : List Char) (happy : List Bool)
    (hlen : grid.length = dimension * dimension)
    (hcells : ∀ c ∈ grid, c = '.' ∨ c = 'e' ∨ c = 'n') :
    (move_rules dimension grid happy).1.length = dimension * dimension ∧
    ∀ i j, i < dimension → j < dimension →
      (cellAt dimension (move_rules dimension grid happy).1 i j = '.'
        ∨ cellAt dimension (move_rules dimension grid happy).1 i j = 'e'
        ∨ cellAt dimension (move_rules dimension grid happy).1 i j = 'n') ∧
      cellAt dimension (move_rules dimension grid happy).1 i j ≠ ' ' ∧
      cellAt dimension (move_rules dimension grid happy).1 i j ≠ 'E' ∧
      cellAt dimension (move_rules dimension grid happy).1 i j ≠ 'N' := by
  obtain ⟨hl, hc⟩ := move_rules_cells dimension grid happy hlen hcells
  refine ⟨hl, ?_⟩
  intro i j hi hj
  have hx : i * dimension + j < (move_rules dimension grid happy).1.length := by
    rw [hl]
    exact offset_lt_square dimension i j hi hj
  have hmem := hc _ (getD_mem_of_lt _ _ hx)
  unfold cellAt
  refine ⟨hmem, ?_, ?_, ?_⟩ <;>
    · intro h
      rw [h] at hmem
      rcases hmem with h2 | h2 | h2 <;> exact absurd h2 (by decide)

theorem move_rules_no_markers_witness :
    (move_rules 3 ['e', 'n', '.', 'n', 'e', 'n', '.', 'e', 'e'] (List.replicate 9 false)).1.length
      = 3 * 3 ∧
    ∀ i j, i < 3 → j < 3 →
      (cellAt 3 (move_rules 3 ['e', 'n', '.', 'n', 'e', 'n', '.', 'e', 'e']
          (List.replicate 9 false)).1 i j = '.'
        ∨ cellAt 3 (move_rules 3 ['e', 'n', '.', 'n', 'e', 'n', '.', 'e', 'e']
          (List.replicate 9 false)).1 i j = 'e'
        ∨ cellAt 3 (move_rules 3 ['e', 'n', '.', 'n', 'e', 'n', '.', 'e', 'e']
          (List.replicate 9 false)).1 i j = 'n') ∧
      cellAt 3 (move_rules 3 ['e', 'n', '.', 'n', 'e', 'n', '.', 'e', 'e']
        (List.replicate 9 false)).1 i j ≠ ' ' ∧
      cellAt 3 (move_rules 3 ['e', 'n', '.', 'n', 'e', 'n', '.', 'e', 'e']
        (List.replicate 9 false)).1 i j ≠ 'E' ∧
      cellAt 3 (move_rules 3 ['e', 'n', '.', 'n', 'e', 'n', '.', 'e', 'e']
        (List.replicate 9 false)).1 i j ≠ 'N' :=
  move_rules_no_markers 3 ['e', 'n', '.', 'n', 'e', 'n', '.', 'e', 'e'] (List.replicate 9 false)
    (by decide) (by decide)

/-- C14: with `size = 25`, `vacancy = 20` and `endline = 60`, `create_array`
turns any buffer of 25 cells into a pool of length 25 with exactly 5 vacant
cells, 12 `'e'` cells and 8 `'n'` cells. -/
theorem create_array_scenario (pointer : List Char) (hlen : pointer.length = 25) :
    vacant_cells 25 20 = 5 ∧ endline_cells 25 20 60 = 12 ∧
    ∃ r, create_array pointer 25 20 60 = some r ∧
      r = List.replicate 5 '.' ++ List.replicate 12 'e' ++ List.replicate 8 'n' ∧
      r.length = 25 ∧ r.count '.' = 5 ∧ r.count 'e' = 12 ∧ r.count 'n' = 8 := by
  have hv : vacant_cells 25 20 = 5 := by decide
  have he : endline_cells 25 20 60 = 12 := by decide
  refine ⟨hv, he, _, create_array_blocks pointer 25 20 60 25 5 12 rfl hlen (by decide) hv he,
    rfl, by decide, by decide, by decide, by decide⟩

theorem create_array_scenario_witness :
    vacant_cells 25 20 = 5 ∧ endline_cells 25 20 60 = 12 ∧
    ∃ r, create_array (List.replicate 25 'x') 25 20 60 = some r ∧
      r = List.replicate 5 '.' ++ List.replicate 12 'e' ++ List.replicate 8 'n' ∧
      r.length = 25 ∧ r.count '.' = 5 ∧ r.count 'e' = 12 ∧ r.count 'n' = 8 :=
  create_array_scenario (List.replicate 25 'x') (by decide)

theorem percent_range_closed (v : Int) (h1 : 0 ≤ v) (h2 : v ≤ 100) :
    0 ≤ (Dbl.mul (Dbl.ofInt v) pointZeroOne).man ∧ (Dbl.mul (Dbl.ofInt v) pointZeroOne).exp ≤ 0 ∧
      (Dbl.mul (Dbl.ofInt v) pointZeroOne).man
        ≤ 2 ^ (-(Dbl.mul (Dbl.ofInt v) pointZeroOne).exp).toNat := by
  interval_cases v <;> decide

/-- The counts of `create_array` for percentages in `[0, 100]`. -/
theorem cells_range_closed (size vacancy endline : Int) (hs0 : 0 ≤ size) (hs : size < 2 ^ 31)
    (h1 : 0 ≤ vacancy) (h2 : vacancy ≤ 100) (h3 : 0 ≤ endline) (h4 : endline ≤ 100) :
    0 ≤ vacant_cells size vacancy ∧ vacant_cells size vacancy ≤ size ∧
    0 ≤ endline_cells size vacancy endline ∧
    endline_cells size vacancy endline ≤ size - vacant_cells size vacancy := by
  have hv : 0 ≤ vacant_cells size vacancy ∧ vacant_cells size vacancy ≤ size := by
    obtain ⟨N, rfl⟩ := Int.eq_ofNat_of_zero_le hs0
    obtain ⟨a, b, c⟩ := percent_range_closed vacancy h1 h2
    have hN : N < 2 ^ 53 := by
      have : (N : Int) < 2 ^ 53 := lt_trans hs (by norm_num)
      exact_mod_cast this
    exact Dbl.toInt_mul_le N hN _ a b c
  refine ⟨hv.1, hv.2, ?_⟩
  obtain ⟨N, hN⟩ := Int.eq_ofNat_of_zero_le (show 0 ≤ size - vacant_cells size vacancy by omega)
  obtain ⟨a, b, c⟩ := percent_range_closed endline h3 h4
  have hN53 : N < 2 ^ 53 := by
    have : (N : Int) < 2 ^ 53 := by
      rw [← hN]
      have : size - vacant_cells size vacancy ≤ size := by omega
      exact lt_of_le_of_lt this (lt_trans hs (by norm_num))
    exact_mod_cast this
  have := Dbl.toInt_mul_le N hN53 _ a b c
  unfold endline_cells
  simp only
  rw [hN]
  exact this

/-- C15 as the code has it: `create_array` does not clamp, but for
percentages in `[0, 100]` and a buffer of `size` cells the numbers of vacant
and of endline markers it writes lie in `[0, size]`, their sum does not exceed
`size`, and no store falls outside the buffer. -/
theorem create_array_in_range (size vacancy endline : Int) (pointer : List Char)
    (hs0 : 0 ≤ size) (hs : size < 2 ^ 31) (h1 : 0 ≤ vacancy) (h2 : vacancy ≤ 100)
    (h3 : 0 ≤ endline) (h4 : endline ≤ 100) (hlen : (pointer.length : Int) = size) :
    ∃ v e : Nat, vacant_cells size vacancy = (v : Int) ∧
      endline_cells size vacancy endline = (e : Int) ∧
      (v : Int) ≤ size ∧ (e : Int) ≤ size ∧ ((v + e : Nat) : Int) ≤ size ∧
      create_array pointer size vacancy endline
        = some (List.replicate v '.' ++ List.replicate e 'e'
            ++ List.replicate (pointer.length - (v + e)) 'n') := by
  obtain ⟨a0, a1, b0, b1⟩ := cells_range_closed size vacancy endline hs0 hs h1 h2 h3 h4
  obtain ⟨v, hv⟩ := Int.eq_ofNat_of_zero_le a0
  obtain ⟨e, he⟩ := Int.eq_ofNat_of_zero_le b0
  have hve : v + e ≤ pointer.length := by
    rw [hv, he] at b1
    omega
  refine ⟨v, e, hv, he, by omega, by omega, by omega, ?_⟩
  exact create_array_blocks pointer size vacancy endline pointer.length v e hlen.symm rfl hve
    hv he

theorem create_array_in_range_witness :
    ∃ v e : Nat, vacant_cells 25 100 = (v : Int) ∧
      endline_cells 25 100 0 = (e : Int) ∧
      (v : Int) ≤ 25 ∧ (e : Int) ≤ 25 ∧ ((v + e : Nat) : Int) ≤ 25 ∧
      create_array (List.replicate 25 ' ') 25 100 0
        = some (List.replicate v '.' ++ List.replicate e 'e'
            ++ List.replicate ((List.replicate 25 ' ').length - (v + e)) 'n') :=
  create_array_in_range 25 100 0 (List.replicate 25 ' ') (by decide) (by decide) (by decide)
    (by decide) (by decide) (by decide) (by decide)

/-- The counterexample to C15: with `size = 25` and `vacancy = 200` the
function computes 50 vacant markers, twice the size of the pool, and stores
past the end of the buffer; with `vacancy = -20` it computes `-5` vacant
markers and stores before the start of the buffer. -/
theorem create_array_no_clamp :
    vacant_cells 25 200 = 50 ∧ ¬ (vacant_cells 25 200 ≤ 25) ∧
    create_array (List.replicate 25 ' ') 25 200 60 = none ∧
    vacant_cells 25 (-20) = -5 ∧ ¬ (0 ≤ vacant_cells 25 (-20)) ∧
    create_array (List.replicate 25 ' ') 25 (-20) 60 = none := by
  refine ⟨by decide, by decide, ?_, by decide, by decide, ?_⟩
  · decide
  · decide

/-! ## Facts about `shuffle_array` -/

theorem load_of_lt (b : List Char) (i : Nat) (hi : i < b.length) :
    load b (i : Int) = some (b.getD i (Char.ofNat 0)) := by
  unfold load
  rw [if_pos ⟨Int.ofNat_nonneg i, by exact_mod_cast hi⟩, Int.toNat_ofNat,
    List.getD_eq_getElem b _ hi, List.getElem?_eq_getElem hi]

theorem store_of_lt (c : Char) (b : List Char) (i : Nat) (hi : i < b.length) :
    store c (i : Int) (some b) = some (b.set i c) := by
  unfold store
  rw [Option.some_bind, if_pos ⟨Int.ofNat_nonneg i, by exact_mod_cast hi⟩, Int.toNat_ofNat]

/-- Exchanging two cells of a buffer permutes it. -/
theorem swap_perm (b : List Char) (i j : Nat) (hi : i < b.length) (hj : j < b.length) :
    ((b.set i (b.getD j (Char.ofNat 0))).set j (b.getD i (Char.ofNat 0))).Perm b := by
  rw [List.perm_iff_count]
  intro a
  have e1 := count_set_add a (b.getD j (Char.ofNat 0)) (Char.ofNat 0) b i hi
  have e2 := count_set_add a (b.getD i (Char.ofNat 0)) (Char.ofNat 0)
    (b.set i (b.getD j (Char.ofNat 0))) j (by simpa using hj)
  have hget : (b.set i (b.getD j (Char.ofNat 0))).getD j (Char.ofNat 0)
      = b.getD j (Char.ofNat 0) := by
    rw [getD_set_eq]
    by_cases h : i = j ∧ j < b.length
    · rw [if_pos h]
    · rw [if_neg h]
  rw [hget] at e2
  omega

/-- The index drawn by the iteration with counter `i` lies in `[i, size)`. -/
theorem draw_range (r size : Int) (i : Nat) (hr : 0 ≤ r) (hi : (i : Int) < size - 2) :
    (i : Int) ≤ Int.tmod r (size - i) + i ∧ Int.tmod r (size - i) + i < size := by
  have hpos : 0 < size - i := by omega
  have h1 := Int.tmod_nonneg (size - i) hr
  have h2 := Int.tmod_lt_of_pos r hpos
  omega

/-- C12: for every buffer and every sequence of non-negative values of
`random()`, each drawn index `j` satisfies `i ≤ j < size`, no read or store of
`shuffle_array` falls outside the buffer, and the resulting buffer is a
permutation of the input (it has the same multiset of elements). -/
theorem shuffle_array_perm (random : Nat → Int) (pointer : List Char)
    (hrand : ∀ k, 0 ≤ random k) :
    (∀ i : Nat, (i : Int) < (pointer.length : Int) - 2 →
      (i : Int) ≤ Int.tmod (random i) ((pointer.length : Int) - i) + i ∧
      Int.tmod (random i) ((pointer.length : Int) - i) + i < (pointer.length : Int)) ∧
    ∃ r, shuffle_array random pointer (pointer.length : Int) = some r ∧ r.Perm pointer := by
  refine ⟨fun i hi => draw_range (random i) _ i (hrand i) hi, ?_⟩
  unfold shuffle_array forLoop
  refine foldl_range_inv _ (fun _ (buf : Option (List Char)) => ∃ r, buf = some r ∧ r.Perm pointer)
    _ (some pointer) ⟨pointer, rfl, List.Perm.refl _⟩ ?_
  rintro k _ hk ⟨b, rfl, hperm⟩
  have hlen : b.length = pointer.length := hperm.length_eq
  have hk2 : (k : Int) < (pointer.length : Int) - 2 := by omega
  obtain ⟨d1, d2⟩ := draw_range (random k) _ k (hrand k) hk2
  obtain ⟨j, hj⟩ := Int.eq_ofNat_of_zero_le
    (show 0 ≤ Int.tmod (random k) ((pointer.length : Int) - k) + k by omega)
  have hkb : k < b.length := by omega
  have hjb : j < b.length := by omega
  simp only [zero_add, Int.toNat_ofNat, Option.some_bind]
  rw [hj, load_of_lt b k hkb, Option.some_bind, load_of_lt b j hjb, Option.some_bind,
    store_of_lt _ b k hkb, store_of_lt _ _ j (by simpa using hjb)]
  exact ⟨_, rfl, (swap_perm b k j hkb hjb).trans hperm⟩

theorem shuffle_array_perm_witness :
    (∀ i : Nat, (i : Int) < ((['a', 'b', 'c', 'd', 'e'] : List Char).length : Int) - 2 →
      (i : Int) ≤ Int.tmod ((fun k => (k : Int) + 7) i)
        (((['a', 'b', 'c', 'd', 'e'] : List Char).length : Int) - i) + i ∧
      Int.tmod ((fun k => (k : Int) + 7) i)
        (((['a', 'b', 'c', 'd', 'e'] : List Char).length : Int) - i) + i
        < ((['a', 'b', 'c', 'd', 'e'] : List Char).length : Int)) ∧
    ∃ r, shuffle_array (fun k => (k : Int) + 7) ['a', 'b', 'c', 'd', 'e']
        ((['a', 'b', 'c', 'd', 'e'] : List Char).length : Int) = some r ∧
      r.Perm ['a', 'b', 'c', 'd', 'e'] :=
  shuffle_array_perm (fun k => (k : Int) + 7) ['a', 'b', 'c', 'd', 'e'] (fun k => by positivity)

/-- C13 (the code departs from the claim): the loop of `shuffle_array` runs
while `i < size - 2`, so the swap step for `i = size - 2` is never made.  A
buffer of two cells is returned as it is whatever `random()` returns, and a
buffer `a b c` never becomes `a c b`, `b c a` or `c a b`: three of the six
permutations cannot be produced. -/
theorem shuffle_array_not_full (random : Nat → Int) :
    shuffle_array random ['a', 'b'] 2 = some ['a', 'b'] ∧
    shuffle_array random ['a', 'b'] 2 ≠ some ['b', 'a'] ∧
    shuffle_array random ['a', 'b', 'c'] 3 ≠ some ['a', 'c', 'b'] ∧
    shuffle_array random ['a', 'b', 'c'] 3 ≠ some ['b', 'c', 'a'] ∧
    shuffle_array random ['a', 'b', 'c'] 3 ≠ some ['c', 'a', 'b'] := by
  have h2 : shuffle_array random ['a', 'b'] 2 = some ['a', 'b'] := rfl
  have h3 : ∀ m : Int,
      ((load ['a', 'b', 'c'] 0).bind fun temp =>
        (load ['a', 'b', 'c'] (m + 0)).bind fun x =>
          store temp (m + 0) (store x 0 (some ['a', 'b', 'c'])))
        ≠ some ['a', 'c', 'b'] ∧
      ((load ['a', 'b', 'c'] 0).bind fun temp =>
        (load ['a', 'b', 'c'] (m + 0)).bind fun x =>
          store temp (m + 0) (store x 0 (some ['a', 'b', 'c'])))
        ≠ some ['b', 'c', 'a'] ∧
      ((load ['a', 'b', 'c'] 0).bind fun temp =>
        (load ['a', 'b', 'c'] (m + 0)).bind fun x =>
          store temp (m + 0) (store x 0 (some ['a', 'b', 'c'])))
        ≠ some ['c', 'a', 'b'] := by
    intro m
    by_cases hm : 0 ≤ m ∧ m < 3
    · obtain ⟨hm1, hm2⟩ := hm
      interval_cases m <;> decide
    · have h0 : load ['a', 'b', 'c'] 0 = some 'a' := rfl
      have hnone : load ['a', 'b', 'c'] (m + 0) = none := by
        unfold load
        rw [if_neg]
        simp only [List.length_cons, List.length_nil]
        omega
      rw [h0, hnone]
      exact ⟨by simp, by simp, by simp⟩
  have hstep : shuffle_array random ['a', 'b', 'c'] 3 =
      ((load ['a', 'b', 'c'] 0).bind fun temp =>
        (load ['a', 'b', 'c'] (Int.tmod (random 0) 3 + 0)).bind fun x =>
          store temp (Int.tmod (random 0) 3 + 0) (store x 0 (some ['a', 'b', 'c']))) := rfl
  rw [h2, hstep]
  exact ⟨rfl, by decide, (h3 _).1, (h3 _).2.1, (h3 _).2.2⟩

/-! ## Facts about `fill_neighborhood` -/

/-- One pass of the loop nest of `fill_neighborhood` as a single loop over offsets. -/
theorem fill_pass_flat (pointer : List Char) (dimension : Nat)
    (st : Option (Int × List Char)) :
    fill_pass pointer dimension st =
      (List.range (dimension * dimension)).foldl (fun (st : Option (Int × List Char)) k =>
        st.bind fun p =>
          (load pointer p.1).bind fun c =>
            (store c (Int.ofNat k) (some p.2)).map fun g => (p.1 + 1, g)) st :=
  foldl_nested dimension
    (fun (st : Option (Int × List Char)) i j =>
      st.bind fun p =>
        (load pointer p.1).bind fun c =>
          (store c (Int.ofNat (i * dimension + j)) (some p.2)).map fun g => (p.1 + 1, g))
    (fun (st : Option (Int × List Char)) k =>
      st.bind fun p =>
        (load pointer p.1).bind fun c =>
          (store c (Int.ofNat k) (some p.2)).map fun g => (p.1 + 1, g))
    (fun _ _ _ _ => rfl) dimension st

/-- One pass over a pool and a grid of `dimension * dimension` cells each copies
the pool into the grid and leaves the counter at `dimension * dimension`. -/
theorem fill_pass_copy (pointer grid : List Char) (dimension : Nat)
    (hp : pointer.length = dimension * dimension) (hg : grid.length = dimension * dimension) :
    fill_pass pointer dimension (some (0, grid))
      = some (((dimension * dimension : Nat) : Int), pointer) := by
  rw [fill_pass_flat]
  have hinv := foldl_range_inv
    (fun (st : Option (Int × List Char)) k =>
      st.bind fun p =>
        (load pointer p.1).bind fun c =>
          (store c (Int.ofNat k) (some p.2)).map fun g => (p.1 + 1, g))
    (fun n (st : Option (Int × List Char)) => ∃ g : List Char,
      st = some ((n : Int), g) ∧ g.length = grid.length ∧
      ∀ x, x < grid.length → g.getD x (Char.ofNat 0)
        = if x < n then pointer.getD x (Char.ofNat 0) else grid.getD x (Char.ofNat 0))
    (dimension * dimension) (some (0, grid)) ⟨grid, rfl, rfl, fun x _ => by simp⟩
    (by
      rintro k _ hk ⟨g, rfl, hl, hget⟩
      have hkp : k < pointer.length := by omega
      have hkg : k < g.length := by omega
      refine ⟨g.set k (pointer.getD k (Char.ofNat 0)), ?_, by simpa using hl, ?_⟩
      · simp only [Option.some_bind]
        rw [load_of_lt pointer k hkp, Option.some_bind]
        have hst := store_of_lt (pointer.getD k (Char.ofNat 0)) g k hkg
        rw [show Int.ofNat k = (k : Int) from rfl, hst]
        simp
      · intro x hx
        rw [getD_set_eq]
        by_cases hxk : k = x
        · subst hxk
          simp [hkg]
        · rw [if_neg (fun h => hxk h.1), hget x hx]
          by_cases hlt : x < k
          · simp [hlt, show x < k + 1 by omega]
          · simp [hlt, show ¬ (x < k + 1) by omega])
  obtain ⟨g, hst, hl, hget⟩ := hinv
  rw [hst]
  have hgp : g = pointer := by
    apply List.ext_getElem
    · omega
    · intro x hx1 hx2
      have := hget x (by omega)
      rw [if_pos (by omega), List.getD_eq_getElem g _ hx1, List.getD_eq_getElem pointer _ hx2]
        at this
      exact this
  rw [hgp]

/-- C17: for a pool and a grid of `dimension * dimension` cells with
`dimension ≥ 1`, `fill_neighborhood` returns (two tests of the `while` condition
are enough), no read or store falls outside its buffer, and on return
`grid[i][j] = pointer[i * dimension + j]` for all `i, j < dimension`. -/
theorem fill_neighborhood_row_major (fuel dimension : Nat) (pointer grid : List Char)
    (hd : 1 ≤ dimension) (hp : pointer.length = dimension * dimension)
    (hg : grid.length = dimension * dimension) (hfuel : 2 ≤ fuel) :
    ∃ g, fill_neighborhood fuel pointer ((dimension * dimension : Nat) : Int) dimension grid
        = some (some g) ∧
      g.length = dimension * dimension ∧
      ∀ i j, i < dimension → j < dimension →
        cellAt dimension g i j = pointer.getD (i * dimension + j) (Char.ofNat 0) := by
  obtain ⟨f, rfl⟩ : ∃ f, fuel = f + 2 := ⟨fuel - 2, by omega⟩
  have hpos : 0 < dimension * dimension := Nat.mul_pos hd hd
  refine ⟨pointer, ?_, hp, fun i j _ _ => rfl⟩
  unfold fill_neighborhood
  have hc1 : (Option.elim (some ((0 : Int), grid)) false fun p =>
      decide (p.1 < ((dimension * dimension : Nat) : Int))) = true := by
    simp only [Option.elim, decide_eq_true_eq]
    exact_mod_cast hpos
  have hc2 : (Option.elim (some (((dimension * dimension : Nat) : Int), pointer)) false fun p =>
      decide (p.1 < ((dimension * dimension : Nat) : Int))) = true ↔ False := by
    simp [Option.elim]
  rw [whileLoop, if_pos hc1, fill_pass_copy pointer grid dimension hp hg, whileLoop,
    if_neg (fun h => hc2.mp h)]
  rfl

theorem fill_neighborhood_row_major_witness :
    ∃ g, fill_neighborhood 2 ['a', 'b', 'c', 'd'] ((2 * 2 : Nat) : Int) 2 [' ', ' ', ' ', ' ']
        = some (some g) ∧
      g.length = 2 * 2 ∧
      ∀ i j, i < 2 → j < 2 →
        cellAt 2 g i j = (['a', 'b', 'c', 'd'] : List Char).getD (i * 2 + j) (Char.ofNat 0) :=
  fill_neighborhood_row_major 2 2 ['a', 'b', 'c', 'd'] [' ', ' ', ' ', ' '] (by decide)
    (by decide) (by decide) (by decide)

/-! ## What `get_sum` does compute -/

theorem foldl_rel {σ τ ι : Type} (R : σ → τ → Prop) (F : σ → ι → σ) (G : τ → ι → τ)
    (h : ∀ s a k, R s a → R (F s k) (G a k)) : ∀ (l : List ι) (s : σ) (a : τ),
    R s a → R (l.foldl F s) (l.foldl G a)
  | [], _, _, hr => hr
  | k :: l, s, a, hr => by
    rw [List.foldl_cons, List.foldl_cons]
    exact foldl_rel R F G h l _ _ (h s a k hr)

/-- Had `sum` been initialised to zero, `get_sum` would return the total
happiness. -/
theorem get_sum_from_zero (dimension : Nat) (grid : List Char) (happy : List Bool)
    (strength : Int) :
    (get_sum (Dbl.ofInt 0) dimension grid happy strength).map Prod.snd
      = happiness_total dimension grid := by
  unfold get_sum happiness_total
  refine foldl_rel (fun (st : Option (List Bool × Dbl)) (acc : Option Dbl) =>
    st.map Prod.snd = acc) _ _ ?_ _ _ _ rfl
  intro s a i hr
  refine foldl_rel (fun (st : Option (List Bool × Dbl)) (acc : Option Dbl) =>
    st.map Prod.snd = acc) _ _ ?_ _ _ _ hr
  intro s a j hr
  subst hr
  cases s with
  | none => rfl
  | some p =>
    cases hrh : return_happiness dimension grid (i : Int) (j : Int) with
    | none => simp [hrh]
    | some h => simp [hrh]

/-- The function `return_happiness` always returns a value. -/
theorem return_happiness_some (dimension : Nat) (grid : List Char) (row col : Int) :
    ∃ h, return_happiness dimension grid row col = some h := by
  by_cases hdot : cellAtInt dimension grid row col = '.'
  · refine ⟨Dbl.ofInt 0, ?_⟩
    unfold return_happiness
    simp only [hdot, if_true]
  · rw [return_happiness_occupied dimension grid row col hdot]
    obtain ⟨_, hsum⟩ := neighbour_counts_le dimension grid row col _ hdot
    obtain ⟨h8, _⟩ := neighbour_counts_le dimension grid row col _ hdot
    split
    · exact ⟨_, rfl⟩
    · obtain ⟨h, hdiv, _⟩ := div_counters
        (((validOffsets dimension row col).countP fun o =>
          decide (cellAtInt dimension grid (row + o.1) (col + o.2)
            = cellAtInt dimension grid row col) : Nat) : Int)
        ((((validOffsets dimension row col).length : Nat) : Int)
          - (((validOffsets dimension row col).countP fun o =>
            decide (cellAtInt dimension grid (row + o.1) (col + o.2) = '.') : Nat) : Int))
        (by omega) (by omega) (by omega) (by omega)
      exact ⟨h, hdiv⟩

/-- The function `get_sum` returns, and on return every entry of the happy
matrix is `check_happiness` of the happiness of its cell. -/
theorem get_sum_happy (sum0 : Dbl) (dimension : Nat) (grid : List Char) (happy : List Bool)
    (strength : Int) (hlen : happy.length = dimension * dimension) :
    ∃ hs total, get_sum sum0 dimension grid happy strength = some (hs, total) ∧
      hs.length = dimension * dimension ∧
      ∀ i j, i < dimension → j < dimension →
        ∃ h, return_happiness dimension grid (i : Int) (j : Int) = some h ∧
          happyAt dimension hs i j = check_happiness h strength := by
  have hflat : get_sum sum0 dimension grid happy strength =
      (List.range (dimension * dimension)).foldl (fun (st : Option (List Bool × Dbl)) k =>
        st.bind fun p =>
          (return_happiness dimension grid ((k / dimension : Nat) : Int)
              ((k % dimension : Nat) : Int)).map fun ind_happiness =>
            (p.1.set k (check_happiness ind_happiness strength), Dbl.add p.2 ind_happiness))
        (some (happy, sum0)) :=
    foldl_nested dimension
      (fun (st : Option (List Bool × Dbl)) (i j : Nat) =>
        st.bind fun p =>
          (return_happiness dimension grid (i : Int) (j : Int)).map fun ind_happiness =>
            (p.1.set (i * dimension + j) (check_happiness ind_happiness strength),
              Dbl.add p.2 ind_happiness))
      (fun (st : Option (List Bool × Dbl)) k =>
        st.bind fun p =>
          (return_happiness dimension grid ((k / dimension : Nat) : Int)
              ((k % dimension : Nat) : Int)).map fun ind_happiness =>
            (p.1.set k (check_happiness ind_happiness strength), Dbl.add p.2 ind_happiness))
      (fun st i j hj => by
        have h1 : (i * dimension + j) / dimension = i := by
          rw [Nat.add_comm, Nat.add_mul_div_right _ _ (by omega), Nat.div_eq_of_lt hj,
            Nat.zero_add]
        have h2 : (i * dimension + j) % dimension = j := by
          rw [Nat.add_comm, Nat.add_mul_mod_self_right, Nat.mod_eq_of_lt hj]
        simp only [h1, h2])
      dimension (some (happy, sum0))
  rw [hflat]
  have hinv := foldl_range_inv
    (fun (st : Option (List Bool × Dbl)) k =>
      st.bind fun p =>
        (return_happiness dimension grid ((k / dimension : Nat) : Int)
            ((k % dimension : Nat) : Int)).map fun ind_happiness =>
          (p.1.set k (check_happiness ind_happiness strength), Dbl.add p.2 ind_happiness))
    (fun n (st : Option (List Bool × Dbl)) => ∃ hs total, st = some (hs, total) ∧
      hs.length = dimension * dimension ∧
      ∀ x, x < n → ∃ h, return_happiness dimension grid ((x / dimension : Nat) : Int)
          ((x % dimension : Nat) : Int) = some h ∧
        hs.getD x false = check_happiness h strength)
    (dimension * dimension) (some (happy, sum0))
    ⟨happy, sum0, rfl, hlen, fun x hx => absurd hx (Nat.not_lt_zero x)⟩
    (by
      rintro k _ hk ⟨hs, total, rfl, hl, hget⟩
      obtain ⟨h, hh⟩ := return_happiness_some dimension grid ((k / dimension : Nat) : Int)
        ((k % dimension : Nat) : Int)
      refine ⟨hs.set k (check_happiness h strength), Dbl.add total h, ?_, by simpa using hl, ?_⟩
      · simp only [Option.some_bind, hh, Option.map_some']
      · intro x hx
        by_cases hxk : x = k
        · subst hxk
          refine ⟨h, hh, ?_⟩
          rw [getD_set_eq, if_pos ⟨rfl, by omega⟩]
        · obtain ⟨h2, hh2, hg2⟩ := hget x (by omega)
          refine ⟨h2, hh2, ?_⟩
          rw [getD_set_eq, if_neg (fun hc => hxk hc.1.symm)]
          exact hg2)
  obtain ⟨hs, total, hst, hl, hget⟩ := hinv
  refine ⟨hs, total, hst, hl, ?_⟩
  intro i j hi hj
  have hx := offset_lt_square dimension i j hi hj
  obtain ⟨h, hh, hg⟩ := hget (i * dimension + j) hx
  have h1 : (i * dimension + j) / dimension = i := by
    rw [Nat.add_comm, Nat.add_mul_div_right _ _ (by omega), Nat.div_eq_of_lt hj, Nat.zero_add]
  have h2 : (i * dimension + j) % dimension = j := by
    rw [Nat.add_comm, Nat.add_mul_mod_self_right, Nat.mod_eq_of_lt hj]
  rw [h1, h2] at hh
  exact ⟨h, hh, hg⟩

/-! ## Facts about `get_sum` -/

set_option maxRecDepth 100000 in
/-- C16 (the code departs from the claim): `get_sum` never initialises
its local `sum`, so the value it returns is the total happiness added to
whatever `sum` held on entry.  On the 5 x 5 grid with one occupant in the corner
the total happiness is `1`; `get_sum` returns `1` when `sum` starts at `0`, but
`4` when it starts at `3`, and `2` when it starts at the `1` a previous call
left behind.  The happy matrix is filled as promised in each case. -/
theorem get_sum_uninitialised :
    happiness_total 5 ('e' :: List.replicate 24 '.') = some ⟨1, 0⟩ ∧
    get_sum ⟨0, 0⟩ 5 ('e' :: List.replicate 24 '.') (List.replicate 25 false) 50
      = some (true :: List.replicate 24 false, ⟨1, 0⟩) ∧
    get_sum ⟨3, 0⟩ 5 ('e' :: List.replicate 24 '.') (List.replicate 25 false) 50
      = some (true :: List.replicate 24 false, ⟨4, 0⟩) ∧
    get_sum ⟨1, 0⟩ 5 ('e' :: List.replicate 24 '.') (List.replicate 25 false) 50
      = some (true :: List.replicate 24 false, ⟨2, 0⟩) ∧
    (⟨4, 0⟩ : Dbl).toRat ≠ (⟨1, 0⟩ : Dbl).toRat := by
  refine ⟨by decide, by decide, by decide, by decide, ?_⟩
  simp [Dbl.toRat]

/-! ## The whole cycle -/

theorem filter_range_succ (p : Nat → Bool) (n : Nat) :
    (List.range (n + 1)).filter p = (List.range n).filter p ++ (if p n = true then [n] else []) := by
  rw [List.range_succ, List.filter_append]
  by_cases h : p n = true
  · simp [h]
  · simp [h]

theorem getD_mem_nat (l : List Nat) (k : Nat) (hk : k < l.length) : l.getD k 0 ∈ l := by
  rw [List.getD_eq_getElem l _ hk]
  exact List.getElem_mem hk

/-- The first element of a filtered range is below the others. -/
theorem filter_range_head (p : Nat → Bool) (n a : Nat) (rest : List Nat)
    (h : (List.range n).filter p = a :: rest) : ∀ x ∈ rest, a < x := by
  have hp : ((List.range n).filter p).Pairwise (· < ·) := (List.pairwise_lt_range n).filter p
  rw [h, List.pairwise_cons] at hp
  exact hp.1

theorem getD_relocated (g : List Char) (t n x : Nat) (u : Char) (ht : t < g.length)
    (hn : n < g.length) :
    ((g.set t u).set n ' ').getD x (Char.ofNat 0)
      = if x = n then ' ' else if x = t then u else g.getD x (Char.ofNat 0) := by
  rw [getD_set_eq, getD_set_eq, List.length_set]
  by_cases h1 : x = n
  · subst h1
    rw [if_pos ⟨rfl, hn⟩, if_pos rfl]
  · rw [if_neg (fun h => h1 h.1.symm), if_neg h1]
    by_cases h2 : x = t
    · subst h2
      rw [if_pos ⟨rfl, ht⟩, if_pos rfl]
    · rw [if_neg (fun h => h2 h.1.symm), if_neg h2]

theorem toupper_occupant (c : Char) (h : c = 'e' ∨ c = 'n') :
    toupper c = 'E' ∨ toupper c = 'N' := by
  rcases h with h | h <;> rw [h]
  · exact Or.inl (by decide)
  · exact Or.inr (by decide)

/-- The vacant offsets after a relocation are the former ones without the target. -/
theorem vacant_after_relocation (g : List Char) (size t n : Nat) (u : Char) (rest : List Nat)
    (ht : t < g.length) (hn : n < g.length) (hu : u ≠ '.')
    (hsrc : g.getD n (Char.ofNat 0) ≠ '.')
    (hhead : (List.range size).filter (fun x => decide (g.getD x (Char.ofNat 0) = '.'))
      = t :: rest) :
    (List.range size).filter
      (fun x => decide (((g.set t u).set n ' ').getD x (Char.ofNat 0) = '.')) = rest := by
  have hgt := filter_range_head _ size t rest hhead
  have hcongr : (List.range size).filter
      (fun x => decide (((g.set t u).set n ' ').getD x (Char.ofNat 0) = '.'))
      = (List.range size).filter
        (fun x => decide (x ≠ t) && decide (g.getD x (Char.ofNat 0) = '.')) := by
    apply List.filter_congr
    intro x _
    rw [getD_relocated g t n x u ht hn]
    by_cases h1 : x = n
    · subst h1
      have h3 : ¬ ((' ' : Char) = '.') := by decide
      rw [if_pos rfl, decide_eq_false hsrc, Bool.and_false]
      exact decide_eq_false h3
    · by_cases h2 : x = t
      · subst h2
        rw [if_neg h1, if_pos rfl, decide_eq_false hu,
          decide_eq_false (show ¬ (x ≠ x) from fun h => h rfl), Bool.false_and]
      · rw [if_neg h1, if_neg h2, decide_eq_true (show x ≠ t from h2), Bool.true_and]
  rw [hcongr, ← List.filter_filter, hhead, List.filter_cons_of_neg (by simp),
    List.filter_eq_self]
  intro a ha
  have := hgt a ha
  exact decide_eq_true (by omega)

theorem unhappyBelow_succ (n : Nat) (grid : List Char) (happy : List Bool) :
    unhappyBelow (n + 1) grid happy = unhappyBelow n grid happy ++
      (if decide ((grid.getD n (Char.ofNat 0) = 'e' ∨ grid.getD n (Char.ofNat 0) = 'n')
        ∧ happy.getD n false = false) = true then [n] else []) :=
  filter_range_succ _ n

/-- The relocation scan moves the unhappy occupants, in row-major order, to the
vacant cells, in row-major order, until one of the two lists is used up: the
log is the list of unhappy offsets cut to the number of vacant cells, the
`k`-th logged cell holds the vacated marker and the `k`-th vacant cell holds the
marker of the occupant that left it, and every other cell keeps its value. -/
theorem relocate_log_moves (dimension : Nat) (grid : List Char) (happy : List Bool)
    (hlen : grid.length = dimension * dimension) :
    (relocate_log dimension grid happy).2
        = (unhappyCells dimension grid happy).take (vacantCells dimension grid).length ∧
    (∀ k, k < (relocate_log dimension grid happy).2.length →
      (relocate_log dimension grid happy).1.getD
          ((relocate_log dimension grid happy).2.getD k 0) (Char.ofNat 0) = ' ' ∧
      (relocate_log dimension grid happy).1.getD
          ((vacantCells dimension grid).getD k 0) (Char.ofNat 0)
        = toupper (grid.getD ((relocate_log dimension grid happy).2.getD k 0) (Char.ofNat 0))) ∧
    (∀ x, (∀ k, k < (relocate_log dimension grid happy).2.length →
        x ≠ (relocate_log dimension grid happy).2.getD k 0
          ∧ x ≠ (vacantCells dimension grid).getD k 0) →
      (relocate_log dimension grid happy).1.getD x (Char.ofNat 0)
        = grid.getD x (Char.ofNat 0)) := by
  -- facts about the vacant offsets of the initial grid
  have hvs : ∀ k, k < (vacantCells dimension grid).length →
      (vacantCells dimension grid).getD k 0 < dimension * dimension ∧
      grid.getD ((vacantCells dimension grid).getD k 0) (Char.ofNat 0) = '.' := by
    intro k hk
    have hmem := getD_mem_nat _ k hk
    unfold vacantCells at hmem
    rw [List.mem_filter, List.mem_range, decide_eq_true_eq] at hmem
    exact hmem
  -- facts about a log that is a prefix of the unhappy offsets below `n`
  have hlogfacts : ∀ (n : Nat) (log : List Nat),
      log = (unhappyBelow n grid happy).take (vacantCells dimension grid).length →
      log.length ≤ (vacantCells dimension grid).length ∧
      log.length ≤ (unhappyBelow n grid happy).length ∧
      ∀ k, k < log.length → log.getD k 0 < n ∧
        (grid.getD (log.getD k 0) (Char.ofNat 0) = 'e'
          ∨ grid.getD (log.getD k 0) (Char.ofNat 0) = 'n') := by
    intro n log hL
    have hlenlog : log.length
        = min (vacantCells dimension grid).length (unhappyBelow n grid happy).length := by
      rw [hL, List.length_take]
    refine ⟨by omega, by omega, ?_⟩
    intro k hk
    have hmem := getD_mem_nat log k hk
    rw [hL] at hmem
    have hmem2 := List.mem_of_mem_take hmem
    rw [← hL] at hmem2
    unfold unhappyBelow at hmem2
    rw [List.mem_filter, List.mem_range, decide_eq_true_eq] at hmem2
    exact ⟨hmem2.1, hmem2.2.1⟩
  have h := relocate_log_induct dimension grid happy hlen
    (fun n g log =>
      log = (unhappyBelow n grid happy).take (vacantCells dimension grid).length ∧
      (∀ k, k < log.length →
        g.getD (log.getD k 0) (Char.ofNat 0) = ' ' ∧
        g.getD ((vacantCells dimension grid).getD k 0) (Char.ofNat 0)
          = toupper (grid.getD (log.getD k 0) (Char.ofNat 0))) ∧
      (∀ x, (∀ k, k < log.length →
          x ≠ log.getD k 0 ∧ x ≠ (vacantCells dimension grid).getD k 0) →
        g.getD x (Char.ofNat 0) = grid.getD x (Char.ofNat 0)) ∧
      (List.range (dimension * dimension)).filter
          (fun x => decide (g.getD x (Char.ofNat 0) = '.'))
        = (vacantCells dimension grid).drop log.length)
    ⟨by simp [unhappyBelow], fun k hk => absurd hk (by simp), fun _ _ => rfl, rfl⟩
    (by
      -- an iteration that moves nobody
      intro n g log hn hl ⟨hL, hA, hB, hC⟩ hcase
      obtain ⟨f3, f4, f1⟩ := hlogfacts n log hL
      refine ⟨?_, hA, hB, hC⟩
      rw [unhappyBelow_succ]
      by_cases helig : decide ((grid.getD n (Char.ofNat 0) = 'e'
          ∨ grid.getD n (Char.ofNat 0) = 'n') ∧ happy.getD n false = false) = true
      · rw [if_pos helig]
        have helig2 := of_decide_eq_true helig
        have hfull : (vacantCells dimension grid).length
            ≤ (unhappyBelow n grid happy).length := by
          rcases hcase with hne | hnodot
          · exfalso
            apply hne
            have hsame : g.getD n (Char.ofNat 0) = grid.getD n (Char.ofNat 0) := by
              apply hB
              intro k hk
              refine ⟨by have := (f1 k hk).1; omega, ?_⟩
              intro heq
              have hd := (hvs k (by omega)).2
              rw [← heq] at hd
              rcases helig2.1 with h1 | h1 <;> rw [h1] at hd <;> exact absurd hd (by decide)
            rw [hsame]
            exact helig2
          · have hnil : (List.range (dimension * dimension)).filter
                (fun x => decide (g.getD x (Char.ofNat 0) = '.')) = [] := by
              rw [List.filter_eq_nil_iff]
              intro a ha
              rw [decide_eq_true_eq]
              exact hnodot a (List.mem_range.mp ha)
            rw [hnil] at hC
            have := List.drop_eq_nil_iff.mp hC.symm
            omega
        rw [List.take_append_of_le_length hfull]
        exact hL
      · rw [if_neg helig, List.append_nil]
        exact hL)
    (by
      -- an iteration that moves the occupant of offset `n` to the first vacant offset `t`
      intro n g log t hn hl ⟨hL, hA, hB, hC⟩ hocc hunhappy ht hdot hfirst
      obtain ⟨f3, f4, f1⟩ := hlogfacts n log hL
      have hnl : n < g.length := by omega
      have htl : t < g.length := by omega
      have hup := toupper_occupant _ hocc
      -- the cell scanned still holds its initial value
      have hsame : g.getD n (Char.ofNat 0) = grid.getD n (Char.ofNat 0) := by
        apply hB
        intro k hk
        refine ⟨by have := (f1 k hk).1; omega, ?_⟩
        intro heq
        have hv := (hA k hk).2
        rw [← heq] at hv
        rcases toupper_occupant _ (f1 k hk).2 with h1 | h1 <;> rw [h1] at hv <;>
          rcases hocc with h2 | h2 <;> rw [h2] at hv <;> exact absurd hv (by decide)
      have helig : decide ((grid.getD n (Char.ofNat 0) = 'e'
          ∨ grid.getD n (Char.ofNat 0) = 'n') ∧ happy.getD n false = false) = true := by
        rw [← hsame]
        exact decide_eq_true ⟨hocc, hunhappy⟩
      -- the target is the next vacant offset
      have hmem : t ∈ (List.range (dimension * dimension)).filter
          (fun x => decide (g.getD x (Char.ofNat 0) = '.')) := by
        rw [List.mem_filter, List.mem_range, decide_eq_true_eq]
        exact ⟨ht, hdot⟩
      have hlt : log.length < (vacantCells dimension grid).length := by
        by_contra hge
        rw [hC, List.drop_eq_nil_iff.mpr (by omega)] at hmem
        exact absurd hmem (List.not_mem_nil t)
      have hhead0 := hC
      rw [List.drop_eq_getElem_cons hlt] at hhead0
      have hta : (vacantCells dimension grid)[log.length] = t := by
        have hain : (vacantCells dimension grid)[log.length]
            ∈ (List.range (dimension * dimension)).filter
              (fun x => decide (g.getD x (Char.ofNat 0) = '.')) := by
          rw [hhead0]
          exact List.mem_cons_self _ _
        rw [List.mem_filter, List.mem_range, decide_eq_true_eq] at hain
        rw [hhead0] at hmem
        rcases List.mem_cons.mp hmem with h1 | h1
        · exact h1.symm
        · have hgt := filter_range_head _ _ _ _ hhead0 t h1
          exact absurd hain.2 (hfirst _ hgt)
      rw [hta] at hhead0
      have hvt : (vacantCells dimension grid).getD log.length 0 = t := by
        rw [List.getD_eq_getElem _ _ hlt, hta]
      have htn : t ≠ n := by
        intro heq
        rw [heq] at hdot
        rcases hocc with h2 | h2 <;> rw [h2] at hdot <;> exact absurd hdot (by decide)
      have hsrcne : g.getD n (Char.ofNat 0) ≠ '.' := by
        rcases hocc with h2 | h2 <;> rw [h2] <;> decide
      have hune : toupper (g.getD n (Char.ofNat 0)) ≠ '.' := by
        rcases hup with h2 | h2 <;> rw [h2] <;> decide
      refine ⟨?_, ?_, ?_, ?_⟩
      · -- the log
        have hlu : (unhappyBelow n grid happy).length = log.length := by
          have : log.length = min (vacantCells dimension grid).length
              (unhappyBelow n grid happy).length := by
            rw [hL, List.length_take]
          omega
        have hlog : log = unhappyBelow n grid happy := by
          rw [hL]
          exact List.take_of_length_le (by omega)
        rw [unhappyBelow_succ, if_pos helig, ← hlog, List.take_of_length_le (by simp; omega)]
      · -- the cells moved so far
        intro k hk
        rw [List.length_append, List.length_singleton] at hk
        rw [getD_relocated g t n _ _ htl hnl, getD_relocated g t n _ _ htl hnl]
        by_cases hkl : k < log.length
        · rw [List.getD_append log [n] 0 k hkl]
          obtain ⟨a1, a2⟩ := hA k hkl
          have hun : log.getD k 0 ≠ n := by have := (f1 k hkl).1; omega
          have hut : log.getD k 0 ≠ t := by
            intro heq
            rw [heq, hdot] at a1
            exact absurd a1 (by decide)
          have hvn : (vacantCells dimension grid).getD k 0 ≠ n := by
            intro heq
            rw [heq] at a2
            rcases toupper_occupant _ (f1 k hkl).2 with h1 | h1 <;> rw [h1] at a2 <;>
              rcases hocc with h2 | h2 <;> rw [h2] at a2 <;> exact absurd a2 (by decide)
          have hvt2 : (vacantCells dimension grid).getD k 0 ≠ t := by
            intro heq
            rw [heq, hdot] at a2
            rcases toupper_occupant _ (f1 k hkl).2 with h1 | h1 <;> rw [h1] at a2 <;>
              exact absurd a2 (by decide)
          rw [if_neg hun, if_neg hut, if_neg hvn, if_neg hvt2]
          exact ⟨a1, a2⟩
        · have hkeq : k = log.length := by omega
          subst hkeq
          rw [List.getD_append_right log [n] 0 _ (le_refl _), Nat.sub_self, hvt]
          simp only [List.getD_cons_zero]
          rw [if_pos trivial, if_neg htn, if_pos trivial, hsame]
          exact ⟨rfl, rfl⟩
      · -- the other cells
        intro x hx
        have hxl := hx log.length (by simp)
        rw [List.getD_append_right log [n] 0 _ (le_refl _), Nat.sub_self, hvt] at hxl
        simp only [List.getD_cons_zero] at hxl
        rw [getD_relocated g t n _ _ htl hnl, if_neg hxl.1, if_neg hxl.2]
        apply hB
        intro k hk
        have := hx k (by simp; omega)
        rw [List.getD_append log [n] 0 k hk] at this
        exact this
      · -- the vacant cells left
        rw [List.length_append, List.length_singleton]
        exact vacant_after_relocation g _ t n _ _ htl hnl hune hsrcne hhead0)
  exact ⟨h.1.1, h.1.2.1, h.1.2.2.1⟩

theorem vacantCells_getD (dimension : Nat) (grid : List Char) (k : Nat)
    (hk : k < (vacantCells dimension grid).length) :
    (vacantCells dimension grid).getD k 0 < dimension * dimension ∧
    grid.getD ((vacantCells dimension grid).getD k 0) (Char.ofNat 0) = '.' := by
  have hmem := getD_mem_nat _ k hk
  unfold vacantCells at hmem
  rw [List.mem_filter, List.mem_range, decide_eq_true_eq] at hmem
  exact hmem

theorem unhappyCells_getD (dimension : Nat) (grid : List Char) (happy : List Bool) (k : Nat)
    (hk : k < (unhappyCells dimension grid happy).length) :
    (unhappyCells dimension grid happy).getD k 0 < dimension * dimension ∧
    (grid.getD ((unhappyCells dimension grid happy).getD k 0) (Char.ofNat 0) = 'e'
      ∨ grid.getD ((unhappyCells dimension grid happy).getD k 0) (Char.ofNat 0) = 'n') ∧
    happy.getD ((unhappyCells dimension grid happy).getD k 0) false = false := by
  have hmem := getD_mem_nat _ k hk
  unfold unhappyCells at hmem
  rw [List.mem_filter, List.mem_range, decide_eq_true_eq] at hmem
  exact ⟨hmem.1, hmem.2.1, hmem.2.2⟩

/-- The entries of a list cut to `m` elements are the first entries of the list. -/
theorem getD_take_nat (l : List Nat) (m k : Nat) (hk : k < (l.take m).length) :
    (l.take m).getD k 0 = l.getD k 0 ∧ k < l.length ∧ k < m := by
  have hk2 := hk
  rw [List.length_take] at hk2
  rw [List.getD_eq_getElem _ _ hk, List.getD_eq_getElem l _ (by omega), List.getElem_take]
  exact ⟨rfl, by omega, by omega⟩

theorem getD_map_resolve (l : List Char) (x : Nat) (hx : x < l.length) :
    (l.map resolve).getD x (Char.ofNat 0) = resolve (l.getD x (Char.ofNat 0)) := by
  rw [List.getD_eq_getElem _ _ (by simpa using hx), List.getD_eq_getElem l _ hx,
    List.getElem_map]

theorem resolve_cell (c : Char) (h : c = '.' ∨ c = 'e' ∨ c = 'n') : resolve c = c := by
  rcases h with h | h | h <;> rw [h] <;> decide

theorem resolve_toupper (c : Char) (h : c = 'e' ∨ c = 'n') : resolve (toupper c) = c := by
  rcases h with h | h <;> rw [h] <;> decide

/-- C18: let `us` be the offsets, in row-major order, of the occupants
whose happy entry is `false` and `vs` those of the vacant cells.  After
`move_rules`, for each `k` below both lengths the cell `vs[k]` holds the value
the input grid had at `us[k]` and the cell `us[k]` is vacant, and every other
cell holds its input value. -/
theorem move_rules_cycle (dimension : Nat) (grid : List Char) (happy : List Bool)
    (hlen : grid.length = dimension * dimension)
    (hcells : ∀ c ∈ grid, c = '.' ∨ c = 'e' ∨ c = 'n') :
    (unhappyCells dimension grid happy).Pairwise (· < ·) ∧
    (vacantCells dimension grid).Pairwise (· < ·) ∧
    (∀ k, k < (unhappyCells dimension grid happy).length →
      k < (vacantCells dimension grid).length →
      (move_rules dimension grid happy).1.getD ((vacantCells dimension grid).getD k 0)
          (Char.ofNat 0)
        = grid.getD ((unhappyCells dimension grid happy).getD k 0) (Char.ofNat 0) ∧
      (move_rules dimension grid happy).1.getD ((unhappyCells dimension grid happy).getD k 0)
          (Char.ofNat 0) = '.') ∧
    (∀ x, x < dimension * dimension →
      (∀ k, k < (unhappyCells dimension grid happy).length →
        k < (vacantCells dimension grid).length →
        x ≠ (unhappyCells dimension grid happy).getD k 0
          ∧ x ≠ (vacantCells dimension grid).getD k 0) →
      (move_rules dimension grid happy).1.getD x (Char.ofNat 0)
        = grid.getD x (Char.ofNat 0)) := by
  obtain ⟨hL, hA, hB⟩ := relocate_log_moves dimension grid happy hlen
  have hl := (relocate_log_invariant dimension grid happy hlen).2
  rw [move_rules_eq dimension grid happy hlen, ← relocate_log_fst]
  refine ⟨(List.pairwise_lt_range _).filter _, (List.pairwise_lt_range _).filter _, ?_, ?_⟩
  · intro k hku hkv
    have hklog : k < (relocate_log dimension grid happy).2.length := by
      rw [hL, List.length_take]
      omega
    have hk2 : k < ((unhappyCells dimension grid happy).take
        (vacantCells dimension grid).length).length := by
      rw [← hL]; exact hklog
    obtain ⟨hget, _, _⟩ := getD_take_nat _ _ k hk2
    rw [← hL] at hget
    obtain ⟨a1, a2⟩ := hA k hklog
    rw [hget] at a1 a2
    obtain ⟨u1, u2, _⟩ := unhappyCells_getD dimension grid happy k hku
    obtain ⟨v1, _⟩ := vacantCells_getD dimension grid k hkv
    simp only
    rw [getD_map_resolve _ _ (by omega), getD_map_resolve _ _ (by omega), a1, a2,
      resolve_toupper _ u2]
    exact ⟨rfl, by decide⟩
  · intro x hx hother
    simp only
    rw [getD_map_resolve _ _ (by omega), hB x, resolve_cell]
    · exact hcells _ (getD_mem_of_lt grid x (by omega))
    · intro k hk
      have hk2 : k < ((unhappyCells dimension grid happy).take
          (vacantCells dimension grid).length).length := by
        rw [← hL]; exact hk
      obtain ⟨hget, h1, h2⟩ := getD_take_nat _ _ k hk2
      rw [← hL] at hget
      rw [hget]
      exact hother k h1 h2

theorem move_rules_cycle_witness :
    ((unhappyCells 3 ['e', 'n', '.', 'n', 'e', 'n', '.', 'e', 'e']
        (List.replicate 9 false)).Pairwise (· < ·) ∧
    (vacantCells 3 ['e', 'n', '.', 'n', 'e', 'n', '.', 'e', 'e']).Pairwise (· < ·) ∧
    (∀ k, k < (unhappyCells 3 ['e', 'n', '.', 'n', 'e', 'n', '.', 'e', 'e']
        (List.replicate 9 false)).length →
      k < (vacantCells 3 ['e', 'n', '.', 'n', 'e', 'n', '.', 'e', 'e']).length →
      (move_rules 3 ['e', 'n', '.', 'n', 'e', 'n', '.', 'e', 'e'] (List.replicate 9 false)).1.getD
          ((vacantCells 3 ['e', 'n', '.', 'n', 'e', 'n', '.', 'e', 'e']).getD k 0) (Char.ofNat 0)
        = (['e', 'n', '.', 'n', 'e', 'n', '.', 'e', 'e'] : List Char).getD
          ((unhappyCells 3 ['e', 'n', '.', 'n', 'e', 'n', '.', 'e', 'e']
            (List.replicate 9 false)).getD k 0) (Char.ofNat 0) ∧
      (move_rules 3 ['e', 'n', '.', 'n', 'e', 'n', '.', 'e', 'e'] (List.replicate 9 false)).1.getD
          ((unhappyCells 3 ['e', 'n', '.', 'n', 'e', 'n', '.', 'e', 'e']
            (List.replicate 9 false)).getD k 0) (Char.ofNat 0) = '.') ∧
    (∀ x, x < 3 * 3 →
      (∀ k, k < (unhappyCells 3 ['e', 'n', '.', 'n', 'e', 'n', '.', 'e', 'e']
          (List.replicate 9 false)).length →
        k < (vacantCells 3 ['e', 'n', '.', 'n', 'e', 'n', '.', 'e', 'e']).length →
        x ≠ (unhappyCells 3 ['e', 'n', '.', 'n', 'e', 'n', '.', 'e', 'e']
            (List.replicate 9 false)).getD k 0
          ∧ x ≠ (vacantCells 3 ['e', 'n', '.', 'n', 'e', 'n', '.', 'e', 'e']).getD k 0) →
      (move_rules 3 ['e', 'n', '.', 'n', 'e', 'n', '.', 'e', 'e'] (List.replicate 9 false)).1.getD
          x (Char.ofNat 0)
        = (['e', 'n', '.', 'n', 'e', 'n', '.', 'e', 'e'] : List Char).getD x (Char.ofNat 0))) ∧
    unhappyCells 3 ['e', 'n', '.', 'n', 'e', 'n', '.', 'e', 'e'] (List.replicate 9 false)
      = [0, 1, 3, 4, 5, 7, 8] ∧
    vacantCells 3 ['e', 'n', '.', 'n', 'e', 'n', '.', 'e', 'e'] = [2, 6] ∧
    (move_rules 3 ['e', 'n', '.', 'n', 'e', 'n', '.', 'e', 'e'] (List.replicate 9 false)).1
      = ['.', '.', 'e', 'n', 'e', 'n', 'n', 'e', 'e'] :=
  ⟨move_rules_cycle 3 ['e', 'n', '.', 'n', 'e', 'n', '.', 'e', 'e'] (List.replicate 9 false)
    (by decide) (by decide), by decide, by decide, by decide⟩

/-- The entries of the log of the relocation scan: the first unhappy offsets. -/
theorem relocate_log_entries (dimension : Nat) (grid : List Char) (happy : List Bool)
    (hlen : grid.length = dimension * dimension) (k : Nat)
    (hk : k < (relocate_log dimension grid happy).2.length) :
    (relocate_log dimension grid happy).2.getD k 0
      = (unhappyCells dimension grid happy).getD k 0 ∧
    k < (unhappyCells dimension grid happy).length ∧
    k < (vacantCells dimension grid).length := by
  have hL := (relocate_log_moves dimension grid happy hlen).1
  have hk2 : k < ((unhappyCells dimension grid happy).take
      (vacantCells dimension grid).length).length := by
    rw [← hL]; exact hk
  have h := getD_take_nat _ _ k hk2
  rw [← hL] at h
  exact h

/-- C19: the value `move_rules` returns is the smaller of the number of
unhappy occupants and the number of vacant cells of the input grid, and it is
the number of cells that were occupied before the call and are vacant after
it. -/
theorem move_rules_count (dimension : Nat) (grid : List Char) (happy : List Bool)
    (hlen : grid.length = dimension * dimension)
    (hcells : ∀ c ∈ grid, c = '.' ∨ c = 'e' ∨ c = 'n') :
    (move_rules dimension grid happy).2
      = ((min (unhappyCells dimension grid happy).length
          (vacantCells dimension grid).length : Nat) : Int) ∧
    (move_rules dimension grid happy).2
      = ((((List.range (dimension * dimension)).filter fun x =>
          decide (grid.getD x (Char.ofNat 0) ≠ '.'
            ∧ (move_rules dimension grid happy).1.getD x (Char.ofNat 0) = '.')).length : Nat)
          : Int) := by
  obtain ⟨hL, hA, hB⟩ := relocate_log_moves dimension grid happy hlen
  obtain ⟨⟨_, _, _, _, _, _, hnd, hsp⟩, hl⟩ := relocate_log_invariant dimension grid happy hlen
  have hS : grid.count ' ' = 0 := List.count_eq_zero.mpr fun h => by
    rcases hcells _ h with h2 | h2 | h2 <;> exact absurd h2 (by decide)
  have hcount : (move_rules dimension grid happy).2
      = (((relocate_log dimension grid happy).2.length : Nat) : Int) := by
    rw [move_rules_eq dimension grid happy hlen, ← relocate_log_fst, hsp, hS]
    simp
  have hloglen : (relocate_log dimension grid happy).2.length
      = min (unhappyCells dimension grid happy).length (vacantCells dimension grid).length := by
    rw [hL, List.length_take]
    omega
  refine ⟨by rw [hcount, hloglen], ?_⟩
  rw [hcount]
  congr 1
  refine (List.Perm.length_eq ?_).symm
  rw [List.perm_ext_iff_of_nodup ((List.nodup_range _).filter _) hnd]
  intro x
  rw [List.mem_filter, List.mem_range, decide_eq_true_eq,
    move_rules_eq dimension grid happy hlen, ← relocate_log_fst]
  simp only
  constructor
  · rintro ⟨hx, hocc, hvac⟩
    rw [getD_map_resolve _ _ (by omega), resolve_eq_dot] at hvac
    by_contra hnot
    have hnelog : ∀ k, k < (relocate_log dimension grid happy).2.length →
        x ≠ (relocate_log dimension grid happy).2.getD k 0 := by
      intro k hk heq
      exact hnot (heq ▸ getD_mem_nat _ k hk)
    have hnevs : ∀ k, k < (relocate_log dimension grid happy).2.length →
        x ≠ (vacantCells dimension grid).getD k 0 := by
      intro k hk heq
      obtain ⟨_, _, hkv⟩ := relocate_log_entries dimension grid happy hlen k hk
      have := (vacantCells_getD dimension grid k hkv).2
      rw [← heq] at this
      exact hocc this
    have hsame := hB x (fun k hk => ⟨hnelog k hk, hnevs k hk⟩)
    rw [hsame] at hvac
    rcases hvac with h1 | h1
    · exact hocc h1
    · rcases hcells _ (getD_mem_of_lt grid x (by omega)) with h2 | h2 | h2 <;>
        rw [h2] at h1 <;> exact absurd h1 (by decide)
  · intro hmem
    obtain ⟨k, hk, hget⟩ := List.getElem_of_mem hmem
    have hgetD : (relocate_log dimension grid happy).2.getD k 0 = x := by
      rw [List.getD_eq_getElem _ _ hk, hget]
    obtain ⟨he, hku, _⟩ := relocate_log_entries dimension grid happy hlen k hk
    obtain ⟨u1, u2, _⟩ := unhappyCells_getD dimension grid happy k hku
    rw [← he, hgetD] at u1 u2
    have a1 := (hA k hk).1
    rw [hgetD] at a1
    refine ⟨u1, ?_, ?_⟩
    · rcases u2 with h | h <;> rw [h] <;> decide
    · rw [getD_map_resolve _ _ (by omega), a1]
      decide

theorem move_rules_count_witness :
    ((move_rules 3 ['e', 'n', '.', 'n', 'e', 'n', '.', 'e', 'e'] (List.replicate 9 false)).2
      = ((min (unhappyCells 3 ['e', 'n', '.', 'n', 'e', 'n', '.', 'e', 'e']
            (List.replicate 9 false)).length
          (vacantCells 3 ['e', 'n', '.', 'n', 'e', 'n', '.', 'e', 'e']).length : Nat) : Int) ∧
    (move_rules 3 ['e', 'n', '.', 'n', 'e', 'n', '.', 'e', 'e'] (List.replicate 9 false)).2
      = ((((List.range (3 * 3)).filter fun x =>
          decide ((['e', 'n', '.', 'n', 'e', 'n', '.', 'e', 'e'] : List Char).getD x
              (Char.ofNat 0) ≠ '.'
            ∧ (move_rules 3 ['e', 'n', '.', 'n', 'e', 'n', '.', 'e', 'e']
              (List.replicate 9 false)).1.getD x (Char.ofNat 0) = '.')).length : Nat) : Int)) ∧
    (move_rules 3 ['e', 'n', '.', 'n', 'e', 'n', '.', 'e', 'e'] (List.replicate 9 false)).2 = 2 :=
  ⟨move_rules_count 3 ['e', 'n', '.', 'n', 'e', 'n', '.', 'e', 'e'] (List.replicate 9 false)
    (by decide) (by decide), by decide⟩

/-- C20: a cell that holds an occupant whose happy entry is `true` before
`move_rules` holds the same value after it. -/
theorem move_rules_content_stay (dimension : Nat) (grid : List Char) (happy : List Bool)
    (hlen : grid.length = dimension * dimension)
    (hcells : ∀ c ∈ grid, c = '.' ∨ c = 'e' ∨ c = 'n') :
    ∀ i j, i < dimension → j < dimension →
      (cellAt dimension grid i j = 'e' ∨ cellAt dimension grid i j = 'n') →
      happyAt dimension happy i j = true →
      cellAt dimension (move_rules dimension grid happy).1 i j = cellAt dimension grid i j := by
  intro i j hi hj hocc hhappy
  obtain ⟨_, _, hB⟩ := relocate_log_moves dimension grid happy hlen
  have hl := (relocate_log_invariant dimension grid happy hlen).2
  have hx := offset_lt_square dimension i j hi hj
  unfold cellAt happyAt at *
  rw [move_rules_eq dimension grid happy hlen, ← relocate_log_fst]
  simp only
  rw [getD_map_resolve _ _ (by omega), hB, resolve_cell]
  · exact hcells _ (getD_mem_of_lt grid _ (by omega))
  · intro k hk
    obtain ⟨he, hku, hkv⟩ := relocate_log_entries dimension grid happy hlen k hk
    obtain ⟨_, _, u3⟩ := unhappyCells_getD dimension grid happy k hku
    obtain ⟨_, v2⟩ := vacantCells_getD dimension grid k hkv
    constructor
    · intro heq
      rw [he] at heq
      rw [← heq, hhappy] at u3
      exact absurd u3 (by decide)
    · intro heq
      rw [← heq] at v2
      rcases hocc with h | h <;> rw [h] at v2 <;> exact absurd v2 (by decide)

theorem move_rules_content_stay_witness :
    cellAt 3 (move_rules 3 ['e', 'n', '.', 'n', 'e', 'n', '.', 'e', 'e']
        [true, false, true, false, true, false, true, false, true]).1 1 1
      = cellAt 3 ['e', 'n', '.', 'n', 'e', 'n', '.', 'e', 'e'] 1 1 :=
  move_rules_content_stay 3 ['e', 'n', '.', 'n', 'e', 'n', '.', 'e', 'e']
    [true, false, true, false, true, false, true, false, true] (by decide) (by decide)
    1 1 (by decide) (by decide) (by decide) (by decide)

end Bracetopia
